import Mathlib

/-!
Shallow embedding of the minesweeper engine in `src/main.rs` (crate `mines`).

Modelling conventions:
* `u16` values (rows, columns, counts) are modelled as `Nat`; the grids and
  configurations exercised by the claims are far below the `u16` range, so no
  wrap-around is reachable in the modelled statements.
* The Rust iterator `GridIterator` is modelled by the list of index pairs it
  yields (`GridIterator.toList`), including its quirk of yielding one element
  per row when the column range is empty.
* Indexing a `Vec` out of range panics in Rust; `Grid.get`/`Grid.set` use
  `List.getD`/`List.set`, which return the default / are a no-op out of range.
  Every access performed by the claims is in range (positions produced by the
  clipped neighbourhood iterator or by the bounds-checked coordinate
  translation), where the two semantics agree.
* The random shuffle `indices.shuffle(&mut rng)` is modelled by passing the
  post-shuffle list as an explicit parameter; theorems quantify over every
  permutation of the list being shuffled, covering every RNG outcome.
* A Rust panic (the out-of-range slice in `allocate_mines`) is modelled by
  `Option`: `none` is a panic.
* The recursive flood fill `open_at` is modelled with explicit fuel
  `size.row * size.col + 1`; lemmas below show this fuel is never exhausted
  on well-formed fields.
-/

namespace Mines

/-- Mirrors `struct IndexPair { row: u16, col: u16 }` (main.rs:23-27). -/
structure IndexPair where
  row : Nat
  col : Nat
deriving DecidableEq, Repr

/-- Mirrors `struct Grid { data: Vec<bool>, size: IndexPair }` (main.rs:29-32). -/
structure Grid where
  data : List Bool
  size : IndexPair
deriving DecidableEq, Repr

/-- Mirrors `Grid::new` (main.rs:35-40): `vec![false; size.row * size.col]`. -/
def Grid.new (size : IndexPair) : Grid :=
  { data := List.replicate (size.row * size.col) false, size := size }

/-- Mirrors `Grid::position` (main.rs:42-44): `index.row * self.size.col + index.col`. -/
def Grid.position (g : Grid) (index : IndexPair) : Nat :=
  index.row * g.size.col + index.col

/-- Mirrors `Grid::get` (main.rs:46-49). Out-of-range reads panic in Rust and
default to `false` here; claims only exercise in-range reads. -/
def Grid.get (g : Grid) (index : IndexPair) : Bool :=
  g.data.getD (g.position index) false

/-- Mirrors `Grid::set` (main.rs:51-54). Out-of-range writes panic in Rust and
are a no-op here; claims only exercise in-range writes. -/
def Grid.set (g : Grid) (index : IndexPair) (value : Bool) : Grid :=
  { g with data := g.data.set (g.position index) value }

namespace GridIterator

/-- Cells yielded by the source iterator within one row, for the column range
`[startCol, endCol)`.  When the column range is empty the source iterator
(main.rs:104-119) still yields one cell per row at `startCol` before wrapping;
no in-bounds call site reaches that case. -/
def rowCells (startCol endCol row : Nat) : List IndexPair :=
  if startCol < endCol then
    (List.range' startCol (endCol - startCol)).map (fun c => ⟨row, c⟩)
  else [⟨row, startCol⟩]

/-- List of cells yielded by `GridIterator::new(start_index, end_index)`
(main.rs:80-86 together with the `next` protocol at main.rs:104-119):
row-major over `[start.row, end.row) × [start.col, end.col)`. -/
def toList (startIndex endIndex : IndexPair) : List IndexPair :=
  (List.range' startIndex.row (endIndex.row - startIndex.row)).flatMap
    (fun r => rowCells startIndex.col endIndex.col r)

/-- Mirrors `GridIterator::all` (main.rs:87-89). -/
def all (size : IndexPair) : List IndexPair :=
  toList ⟨0, 0⟩ size

/-- Mirrors `GridIterator::around` (main.rs:91-101): the 3×3 block centred on
`index`, clipped to the grid (saturating subtraction, `min` against `size`).
Note the centre cell itself is among the yielded cells. -/
def around (size index : IndexPair) : List IndexPair :=
  toList ⟨index.row - 1, index.col - 1⟩
         ⟨min (index.row + 2) size.row, min (index.col + 2) size.col⟩

end GridIterator

/-- Mirrors `Grid::around` (main.rs:62-64). -/
def Grid.around (g : Grid) (index : IndexPair) : List IndexPair :=
  GridIterator.around g.size index

/-- Mirrors `Grid::sum_neighbors` (main.rs:56-60): sum of indicators over the
cells yielded by `around` — which include `index` itself. -/
def Grid.sum_neighbors (g : Grid) (index : IndexPair) : Nat :=
  ((g.around index).map (fun i => if g.get i then 1 else 0)).sum

/-- Mirrors `Grid::count` (main.rs:66-70). -/
def Grid.count (g : Grid) : Nat :=
  ((GridIterator.all g.size).map (fun i => if g.get i then 1 else 0)).sum

/-- Mirrors `enum ClickResult` (main.rs:137-141). -/
inductive ClickResult where
  | Safe
  | Exploded
deriving DecidableEq, Repr

/-- Mirrors `struct Field` (main.rs:121-129). -/
structure Field where
  size : IndexPair
  n_mines : Nat
  are_mines_allocated : Bool
  mines : Grid
  opened : Grid
  flags : Grid
deriving DecidableEq, Repr

/-- Mirrors `Field::new` (main.rs:144-154).  Note: it performs no validation of
`n_mines` whatsoever. -/
def Field.new (size : IndexPair) (n_mines : Nat) : Field :=
  { size := size
    n_mines := n_mines
    are_mines_allocated := false
    mines := Grid.new size
    opened := Grid.new size
    flags := Grid.new size }

/-- The list `indices` of `Field::allocate_mines` (main.rs:156-161) before the
shuffle: all grid cells not in the `HashSet` built from
`self.mines.around(starting_index)` (membership in that set is membership in
the `around` list). -/
def Field.eligible_indices (f : Field) (starting_index : IndexPair) : List IndexPair :=
  (GridIterator.all f.size).filter
    (fun x => decide (x ∉ f.mines.around starting_index))

/-- Mirrors `Field::allocate_mines` (main.rs:156-170).  `shuffled` stands for
the contents of `indices` after `indices.shuffle(&mut rng)`; theorems quantify
over every permutation of `f.eligible_indices starting_index`.  The slice
`&indices[..self.n_mines]` panics when `n_mines` exceeds the list length;
modelled as `none`. -/
def Field.allocate_mines (f : Field) (shuffled : List IndexPair) : Option Field :=
  if f.n_mines ≤ shuffled.length then
    some { f with
      mines := (shuffled.take f.n_mines).foldl (fun g i => g.set i true) f.mines
      are_mines_allocated := true }
  else none

/-- Mirrors `Field::open_at` (main.rs:194-208) with explicit fuel for the
recursion.  Fuel 0 is never reached at the fuel chosen by `Field.open_at`. -/
def Field.open_at_fuel : Nat → Field → IndexPair → Field
  | 0, f, _ => f
  | Nat.succ fuel, f, index =>
    if f.opened.get index then f
    else
      let f1 : Field := { f with opened := f.opened.set index true }
      let f2 : Field := { f1 with flags := f1.flags.set index false }
      if f2.mines.get index || decide (0 < f2.mines.sum_neighbors index) then f2
      else
        (f2.opened.around index).foldl
          (fun acc j =>
            if !acc.opened.get j && !acc.mines.get j then Field.open_at_fuel fuel acc j
            else acc) f2

/-- One iteration of the `for` loop in `Field::open_at` (main.rs:203-207):
recurse into an unopened, unmined neighbour.  Named form of the fold body of
`Field.open_at_fuel`. -/
def Field.open_step (fuel : Nat) (acc : Field) (j : IndexPair) : Field :=
  if !acc.opened.get j && !acc.mines.get j then Field.open_at_fuel fuel acc j else acc

/-- `Field::open_at` at the top level: the fuel `size.row * size.col + 1`
bounds the recursion depth, which never exceeds the number of cells plus one
(each nested call opens a fresh cell first). -/
def Field.open_at (f : Field) (index : IndexPair) : Field :=
  Field.open_at_fuel (f.size.row * f.size.col + 1) f index

/-- Mirrors `Field::handle_click` (main.rs:172-185).  `shuffled` is threaded to
`allocate_mines` (used only when mines are not yet allocated); `none` is the
allocation panic. -/
def Field.handle_click (f : Field) (index : IndexPair) (shuffled : List IndexPair) :
    Option (Field × ClickResult) :=
  match (if f.are_mines_allocated then some f else f.allocate_mines shuffled) with
  | none => none
  | some f1 =>
    if f1.flags.get index then some (f1, ClickResult.Safe)
    else
      let f2 := f1.open_at index
      if f2.mines.get index then some (f2, ClickResult.Exploded)
      else some (f2, ClickResult.Safe)

/-- Mirrors `Field::handle_force_click` (main.rs:187-192). -/
def Field.handle_force_click (f : Field) (index : IndexPair) : Field × ClickResult :=
  (if !f.opened.get index then
    { f with flags := f.flags.set index (!f.flags.get index) }
  else f, ClickResult.Safe)

/-- Mirrors `enum GameStatus` (main.rs:225-230). -/
inductive GameStatus where
  | InProgress
  | Win
  | Loss
deriving DecidableEq, Repr

/-- Mouse buttons of the input events consumed by `handle_mouse`
(crossterm `MouseButton`). -/
inductive MouseButton where
  | Left
  | Right
  | Middle
deriving DecidableEq, Repr

/-- Modifier state of the input events: the source matches the modifier bitset
against exactly `NONE` and `SHIFT`; every other bitset value is collapsed into
`OTHER`. -/
inductive KeyModifiers where
  | NONE
  | SHIFT
  | OTHER
deriving DecidableEq, Repr

/-- Kind of a mouse event: the source destructures `MouseEventKind::Down`
and ignores every other kind. -/
inductive MouseEventKind where
  | Down (button : MouseButton)
  | OtherKind
deriving DecidableEq, Repr

/-- The parts of crossterm's `MouseEvent` read by `handle_mouse`. -/
structure MouseEvent where
  kind : MouseEventKind
  modifiers : KeyModifiers
  row : Nat
  column : Nat
deriving DecidableEq, Repr

/-- Mirrors `struct GameState` (main.rs:232-237); the `stdout` handle is I/O
plumbing and carries no game state. -/
structure GameState where
  field : Field
  start : IndexPair
  status : GameStatus
deriving DecidableEq, Repr

/-- Mirrors `GameState::new` (main.rs:240-247). -/
def GameState.new (size : IndexPair) (n_mines : Nat) : GameState :=
  { field := Field.new size n_mines
    start := ⟨1, 1⟩
    status := GameStatus.InProgress }

/-- Mirrors `GameState::convert_absolute_to_relative` (main.rs:375-387). -/
def GameState.convert_absolute_to_relative (gs : GameState) (old_coords : IndexPair) :
    Option IndexPair :=
  if gs.start.row ≤ old_coords.row ∧ gs.start.col ≤ old_coords.col then
    let new_coords : IndexPair :=
      ⟨old_coords.row - gs.start.row, (old_coords.col - gs.start.col) / 2⟩
    if new_coords.row < gs.field.size.row ∧ new_coords.col < gs.field.size.col then
      some new_coords
    else none
  else none

/-- Mirrors `GameState::lose_game` (main.rs:283-286). -/
def GameState.lose_game (gs : GameState) : GameState :=
  { gs with status := GameStatus.Loss }

/-- Mirrors `GameState::check_for_win` (main.rs:288-293): the status check is
purely a count comparison, `n_mines == n_total - n_opened`. -/
def GameState.check_for_win (gs : GameState) : Bool :=
  gs.field.n_mines == gs.field.size.row * gs.field.size.col - gs.field.opened.count

/-- Mirrors `GameState::win_game` (main.rs:295-297). -/
def GameState.win_game (gs : GameState) : GameState :=
  { gs with status := GameStatus.Win }

/-- The tail of `GameState::handle_mouse` (main.rs:274-279): loss on
`Exploded`, then the win check, which runs after and can overwrite `Loss`. -/
def GameState.after_click (gs : GameState) (click_result : ClickResult) : GameState :=
  let gs1 := if click_result = ClickResult.Exploded then gs.lose_game else gs
  if gs1.check_for_win then gs1.win_game else gs1

/-- Mirrors `GameState::handle_mouse` (main.rs:249-281).  The `Ok(())` returns
are modelled as `some` of the (possibly unchanged) state; `none` is a panic
propagated from `allocate_mines`.  `shuffled` is threaded to `handle_click`. -/
def GameState.handle_mouse (gs : GameState) (event : MouseEvent)
    (shuffled : List IndexPair) : Option GameState :=
  if gs.status ≠ GameStatus.InProgress then some gs
  else
    match gs.convert_absolute_to_relative ⟨event.row, event.column⟩ with
    | none => some gs
    | some index =>
      match event.kind with
      | MouseEventKind.Down button =>
        match button, event.modifiers with
        | MouseButton.Left, KeyModifiers.NONE =>
          match gs.field.handle_click index shuffled with
          | none => none
          | some (f1, r) => some (GameState.after_click { gs with field := f1 } r)
        | MouseButton.Left, KeyModifiers.SHIFT =>
          let p := gs.field.handle_force_click index
          some (GameState.after_click { gs with field := p.1 } p.2)
        | MouseButton.Right, KeyModifiers.NONE =>
          let p := gs.field.handle_force_click index
          some (GameState.after_click { gs with field := p.1 } p.2)
        | _, _ => some (GameState.after_click gs ClickResult.Safe)
      | MouseEventKind.OtherKind => some gs

/-! ### Well-formedness and bounds -/

/-- A coordinate is in bounds of a grid size. -/
def inB (size index : IndexPair) : Prop :=
  index.row < size.row ∧ index.col < size.col

instance (size index : IndexPair) : Decidable (inB size index) := by
  unfold inB; infer_instance

/-- The type invariant Rust's `Grid` maintains by construction: the flat buffer
has exactly `size.row * size.col` entries. -/
def Grid.wf (g : Grid) (size : IndexPair) : Prop :=
  g.size = size ∧ g.data.length = size.row * size.col

instance (g : Grid) (size : IndexPair) : Decidable (g.wf size) := by
  unfold Grid.wf; infer_instance

/-- The type invariant Rust's `Field` maintains: its three grids share the
field's size. -/
def Field.wf (f : Field) : Prop :=
  f.mines.wf f.size ∧ f.opened.wf f.size ∧ f.flags.wf f.size

instance (f : Field) : Decidable f.wf := by
  unfold Field.wf; infer_instance

/-- The two grid writes performed by `open_at` when the cell is fresh
(main.rs:198-199): open the cell and clear its flag. -/
def Field.open_core (f : Field) (index : IndexPair) : Field :=
  { f with opened := f.opened.set index true, flags := f.flags.set index false }

/-- Frame facts preserved by every flood-fill step: configuration, sizes,
buffer lengths and mines are untouched, and the opened set only grows. -/
def Pres (f g : Field) : Prop :=
  g.size = f.size ∧ g.n_mines = f.n_mines ∧
  g.are_mines_allocated = f.are_mines_allocated ∧
  g.mines = f.mines ∧
  g.opened.size = f.opened.size ∧ g.opened.data.length = f.opened.data.length ∧
  g.flags.size = f.flags.size ∧ g.flags.data.length = f.flags.data.length ∧
  (∀ x, f.opened.get x = true → g.opened.get x = true)

/-- Number of unopened cells of the grid; used as the termination measure of
the flood fill. -/
def Field.unopenedCount (f : Field) : Nat :=
  ((GridIterator.all f.size).map (fun i => if f.opened.get i then 0 else 1)).sum

/-- Closure of a set of cells under the descent step of the flood fill: from a
cell with no mine and zero neighbour count, the set absorbs every non-mine
cell of the clipped 3×3 block. -/
def cascadeInvariant (size : IndexPair) (M : Grid) (T : IndexPair → Prop) : Prop :=
  ∀ d, T d → M.get d = false → M.sum_neighbors d = 0 →
    ∀ e, e ∈ GridIterator.around size d → M.get e = false → T e

/-- `cascadeClosed f exc`: every opened, non-mine, zero-neighbour-count cell —
except the cells listed in `exc` — already has all non-mine cells of its
clipped 3×3 block opened.  Game-reachable fields satisfy this with
`exc = []`; the nonempty `exc` form is the intermediate invariant of the
recursion. -/
def cascadeClosed (f : Field) (exc : List IndexPair) : Prop :=
  ∀ i ∈ GridIterator.all f.size, f.opened.get i = true → f.mines.get i = false →
    f.mines.sum_neighbors i = 0 → i ∉ exc →
    ∀ j ∈ GridIterator.around f.size i, f.mines.get j = false →
      f.opened.get j = true

instance (f : Field) (exc : List IndexPair) : Decidable (cascadeClosed f exc) := by
  unfold cascadeClosed
  infer_instance

/-- The set of cells the recursion started at `c` can descend to: `c` itself,
and, from any member that is not a mine and has neighbour count zero, every
non-mine cell of its clipped 3×3 block. -/
inductive CascadeSet (f : Field) (c : IndexPair) : IndexPair → Prop where
  | base : CascadeSet f c c
  | step (d e : IndexPair) : CascadeSet f c d → f.mines.get d = false →
      f.mines.sum_neighbors d = 0 → e ∈ GridIterator.around f.size d →
      f.mines.get e = false → CascadeSet f c e

/-- The connected region of zero-neighbour-count non-mine cells containing
`c`, connectivity through the clipped 3×3 blocks.  By construction it is the
least such set, i.e. the maximal connected zero region is exactly the cells
satisfying this predicate. -/
inductive ZeroCluster (f : Field) (c : IndexPair) : IndexPair → Prop where
  | base : ZeroCluster f c c
  | step (d e : IndexPair) : ZeroCluster f c d → e ∈ GridIterator.around f.size d →
      f.mines.get e = false → f.mines.sum_neighbors e = 0 → ZeroCluster f c e


/-- The flag/open exclusion invariant of the specification: no cell is both
opened and flagged. -/
def flagInv (f : Field) : Prop :=
  ∀ x, inB f.size x → ¬(f.opened.get x = true ∧ f.flags.get x = true)

/-- Reachability of a field through the public field operations from a fresh
field, with arbitrary coordinates and arbitrary shuffle outcomes; a panicking
(`none`) click produces no successor state. -/
inductive FieldReach (size : IndexPair) (n : Nat) : Field → Prop where
  | init : FieldReach size n (Field.new size n)
  | click (f : Field) (c : IndexPair) (sh : List IndexPair) (f' : Field)
      (r : ClickResult) : FieldReach size n f →
      f.handle_click c sh = some (f', r) → FieldReach size n f'
  | force (f : Field) (c : IndexPair) : FieldReach size n f →
      FieldReach size n (f.handle_force_click c).1
  | openStep (f : Field) (c : IndexPair) : FieldReach size n f →
      FieldReach size n (f.open_at c)

/-- The shuffle outcome fed to a mouse event is valid when it permutes the
eligible list of the targeted cell: the real shuffle always yields such a
permutation, and every permutation is a possible RNG outcome. -/
def ValidShuffle (gs : GameState) (event : MouseEvent) (sh : List IndexPair) : Prop :=
  match gs.convert_absolute_to_relative ⟨event.row, event.column⟩ with
  | some index => sh.Perm (gs.field.eligible_indices index)
  | none => True

/-- Game states reachable from `GameState::new` through mouse events carrying
valid shuffle outcomes. -/
inductive GSReach (size : IndexPair) (n : Nat) : GameState → Prop where
  | init : GSReach size n (GameState.new size n)
  | step (gs : GameState) (event : MouseEvent) (sh : List IndexPair)
      (gs' : GameState) : GSReach size n gs → ValidShuffle gs event sh →
      gs.handle_mouse event sh = some gs' → GSReach size n gs'

/-- Mouse event: left button pressed with no modifier at screen coordinates
`(row, col)`. -/
def leftClickAt (row col : Nat) : MouseEvent :=
  ⟨MouseEventKind.Down MouseButton.Left, KeyModifiers.NONE, row, col⟩

/-- Shuffle outcome whose first two entries put the two mines of the 3×3
demonstration game at cells (2,0) and (0,2); it permutes the eligible list of
a first click at cell (0,0). -/
def bugShuffle : List IndexPair := [⟨2, 0⟩, ⟨0, 2⟩, ⟨1, 2⟩, ⟨2, 1⟩, ⟨2, 2⟩]

/-- Demonstration game (3×3 grid, 2 mines) exhibiting the win-by-explosion
defect: state after 0 clicks. -/
def bugGS0 : GameState := GameState.new ⟨3, 3⟩ 2

/-- State after the first click at grid cell (0,0) (screen (1,1)): mines land
at (2,0) and (0,2); the flood fill opens the four cells of the top-left
block. -/
def bugGS1 : GameState :=
  (bugGS0.handle_mouse (leftClickAt 1 1) bugShuffle).getD bugGS0

/-- State after the second click, at grid cell (1,2) (screen (2,5)). -/
def bugGS2 : GameState :=
  (bugGS1.handle_mouse (leftClickAt 2 5)
    (bugGS1.field.eligible_indices ⟨1, 2⟩)).getD bugGS0

/-- State after the third click, at grid cell (2,1) (screen (3,3)): six of the
seven safe cells are now open and the game is still in progress. -/
def bugGS3 : GameState :=
  (bugGS2.handle_mouse (leftClickAt 3 3)
    (bugGS2.field.eligible_indices ⟨2, 1⟩)).getD bugGS0

/-- State after the fourth click, on the mine at grid cell (2,0) (screen
(3,1)): the click explodes, yet the opened count reaches 7 = 9 − 2, so the
win check passes and the status ends up `Win`. -/
def bugGS4 : GameState :=
  (bugGS3.handle_mouse (leftClickAt 3 1)
    (bugGS3.field.eligible_indices ⟨2, 0⟩)).getD bugGS0

/-- A 1×3 mine-free field whose middle cell is already opened (but whose
neighbours are not): it violates the cascade-closure invariant and stops the
flood fill early. -/
def fieldWithPreopenedGap : Field :=
  { Field.new ⟨1, 3⟩ 0 with opened := (Grid.new ⟨1, 3⟩).set ⟨0, 1⟩ true }

/-- A fresh 3×3 one-mine field with a flag placed on cell (0,0) and mines not
yet allocated. -/
def flaggedFreshField : Field :=
  ((Field.new ⟨3, 3⟩ 1).handle_force_click ⟨0, 0⟩).1

/-- A finished (won) game state. -/
def wonGS : GameState :=
  { GameState.new ⟨2, 2⟩ 1 with status := GameStatus.Win }

/-! ### Iterator membership, nodup and length -/

namespace GridIterator

theorem mem_rowCells {s e r : Nat} {x : IndexPair} :
    x ∈ rowCells s e r ↔
      x.row = r ∧ ((s < e ∧ s ≤ x.col ∧ x.col < e) ∨ (e ≤ s ∧ x.col = s)) := by
  obtain ⟨xr, xc⟩ := x
  unfold rowCells
  by_cases h : s < e
  · simp only [if_pos h, List.mem_map, List.mem_range'_1, IndexPair.mk.injEq]
    constructor
    · rintro ⟨c, hc, rfl, rfl⟩; omega
    · rintro ⟨rfl, hc⟩; exact ⟨xc, by omega, rfl, rfl⟩
  · simp only [if_neg h, List.mem_singleton, IndexPair.mk.injEq]
    omega

theorem mem_toList {s e x : IndexPair} :
    x ∈ toList s e ↔ (s.row ≤ x.row ∧ x.row < e.row) ∧
      ((s.col < e.col ∧ s.col ≤ x.col ∧ x.col < e.col) ∨
       (e.col ≤ s.col ∧ x.col = s.col)) := by
  unfold toList
  rw [List.mem_flatMap]
  constructor
  · rintro ⟨r, hr, hx⟩
    rw [List.mem_range'_1] at hr
    rw [mem_rowCells] at hx
    omega
  · rintro ⟨⟨h1, h2⟩, hcol⟩
    refine ⟨x.row, ?_, ?_⟩
    · rw [List.mem_range'_1]; omega
    · rw [mem_rowCells]; omega

theorem mem_around {size c x : IndexPair} (hc : inB size c) :
    x ∈ around size c ↔
      (c.row - 1 ≤ x.row ∧ x.row < min (c.row + 2) size.row ∧
       c.col - 1 ≤ x.col ∧ x.col < min (c.col + 2) size.col) := by
  obtain ⟨h1, h2⟩ := hc
  unfold around
  rw [mem_toList]
  dsimp only
  omega

theorem around_self {size c : IndexPair} (hc : inB size c) :
    c ∈ around size c := by
  have h := hc
  obtain ⟨h1, h2⟩ := h
  rw [mem_around hc]
  omega

theorem around_inB {size c x : IndexPair} (hc : inB size c)
    (hx : x ∈ around size c) : inB size x := by
  have h := hc
  obtain ⟨h1, h2⟩ := h
  rw [mem_around hc] at hx
  exact ⟨by omega, by omega⟩

theorem mem_all {size x : IndexPair} (hcol : 0 < size.col) :
    x ∈ all size ↔ inB size x := by
  unfold all
  rw [mem_toList]
  show _ ↔ x.row < size.row ∧ x.col < size.col
  dsimp only
  omega

theorem nodup_rowCells (s e r : Nat) : (rowCells s e r).Nodup := by
  unfold rowCells
  split
  · exact (List.nodup_range' s (e - s)).map
      (fun a b h => by simpa using congrArg IndexPair.col h)
  · simp

theorem nodup_toList (s e : IndexPair) : (toList s e).Nodup := by
  unfold toList
  apply List.nodup_flatMap.2
  refine ⟨fun r _ => nodup_rowCells _ _ _, ?_⟩
  refine (List.nodup_range' _ _).imp ?_
  intro a b hab x hx hx'
  rw [mem_rowCells] at hx hx'
  omega

theorem nodup_all (size : IndexPair) : (all size).Nodup := nodup_toList _ _

theorem nodup_around (size c : IndexPair) : (around size c).Nodup := nodup_toList _ _

theorem length_rowCells (s e r : Nat) (h : s < e) :
    (rowCells s e r).length = e - s := by
  unfold rowCells
  simp [h]

theorem length_toList (s e : IndexPair) (h : s.col < e.col) :
    (toList s e).length = (e.row - s.row) * (e.col - s.col) := by
  unfold toList
  rw [List.length_flatMap]
  have hconst : ∀ r ∈ List.range' s.row (e.row - s.row),
      (List.length ∘ fun r => rowCells s.col e.col r) r = e.col - s.col :=
    fun r _ => length_rowCells s.col e.col r h
  rw [List.map_congr_left hconst, List.map_const', List.sum_replicate,
    List.length_range', smul_eq_mul]

theorem length_all {size : IndexPair} (h : 0 < size.col) :
    (all size).length = size.row * size.col := by
  unfold all
  rw [length_toList ⟨0, 0⟩ size h]
  simp

theorem length_around {size c : IndexPair} (hc : inB size c) :
    (around size c).length =
      (min (c.row + 2) size.row - (c.row - 1)) *
      (min (c.col + 2) size.col - (c.col - 1)) := by
  obtain ⟨h1, h2⟩ := hc
  unfold around
  rw [length_toList _ _ (by dsimp only; omega)]

theorem length_around_le_nine {size c : IndexPair} (hc : inB size c) :
    (around size c).length ≤ 9 := by
  obtain ⟨h1, h2⟩ := hc
  rw [length_around ⟨h1, h2⟩]
  have ha : min (c.row + 2) size.row - (c.row - 1) ≤ 3 := by omega
  have hb : min (c.col + 2) size.col - (c.col - 1) ≤ 3 := by omega
  calc (min (c.row + 2) size.row - (c.row - 1)) *
        (min (c.col + 2) size.col - (c.col - 1)) ≤ 3 * 3 :=
        Nat.mul_le_mul ha hb
    _ = 9 := rfl

end GridIterator

/-! ### Position and cell access -/

theorem Grid.position_lt {g : Grid} {size : IndexPair} (hwf : g.wf size)
    {i : IndexPair} (hi : inB size i) : g.position i < g.data.length := by
  obtain ⟨hsz, hlen⟩ := hwf
  obtain ⟨h1, h2⟩ := hi
  unfold Grid.position
  rw [hlen, hsz]
  calc i.row * size.col + i.col < i.row * size.col + size.col := by omega
    _ = (i.row + 1) * size.col := by ring
    _ ≤ size.row * size.col := Nat.mul_le_mul_right _ (by omega)

theorem Grid.position_inj {g : Grid} {size : IndexPair} (hsz : g.size = size)
    {i j : IndexPair} (hi : inB size i) (hj : inB size j)
    (h : g.position i = g.position j) : i = j := by
  unfold Grid.position at h
  rw [hsz] at h
  obtain ⟨hi1, hi2⟩ := hi
  obtain ⟨hj1, hj2⟩ := hj
  obtain ⟨ir, ic⟩ := i
  obtain ⟨jr, jc⟩ := j
  simp only at h hi1 hi2 hj1 hj2
  have hr : ir = jr := by
    rcases Nat.lt_trichotomy ir jr with hlt | heq | hgt
    · exfalso
      have h2 : (ir + 1) * size.col ≤ jr * size.col :=
        Nat.mul_le_mul_right _ (by omega)
      rw [Nat.succ_mul] at h2
      omega
    · exact heq
    · exfalso
      have h2 : (jr + 1) * size.col ≤ ir * size.col :=
        Nat.mul_le_mul_right _ (by omega)
      rw [Nat.succ_mul] at h2
      omega
  subst hr
  simp only [IndexPair.mk.injEq, true_and]
  omega

theorem Grid.set_size (g : Grid) (i : IndexPair) (v : Bool) :
    (g.set i v).size = g.size := rfl

theorem Grid.set_length (g : Grid) (i : IndexPair) (v : Bool) :
    (g.set i v).data.length = g.data.length := by
  unfold Grid.set
  simp

theorem Grid.wf_set {g : Grid} {size : IndexPair} (h : g.wf size)
    (i : IndexPair) (v : Bool) : (g.set i v).wf size := by
  obtain ⟨hsz, hlen⟩ := h
  exact ⟨hsz, by rw [Grid.set_length, hlen]⟩

theorem Grid.get_set_self {g : Grid} (i : IndexPair) (v : Bool)
    (hlt : g.position i < g.data.length) : (g.set i v).get i = v := by
  show (g.data.set (g.position i) v).getD (g.position i) false = v
  rw [List.getD_eq_getElem?_getD, List.getElem?_set_self (by simpa using hlt)]
  rfl

theorem Grid.get_set_ne {g : Grid} {i j : IndexPair} (v : Bool)
    (h : g.position j ≠ g.position i) : (g.set i v).get j = g.get j := by
  show (g.data.set (g.position i) v).getD (g.position j) false = _
  rw [List.getD_eq_getElem?_getD, List.getElem?_set_ne (by omega)]
  rw [Grid.get, List.getD_eq_getElem?_getD]

theorem grid_new_wf (size : IndexPair) : (Grid.new size).wf size := by
  exact ⟨rfl, by simp [Grid.new]⟩

theorem Grid.get_new (size i : IndexPair) : (Grid.new size).get i = false := by
  show (List.replicate (size.row * size.col) false).getD _ false = false
  rw [List.getD_eq_getElem?_getD]
  rcases h : (List.replicate (size.row * size.col) false)[(Grid.new size).position i]? with _ | b
  · rfl
  · have := List.getElem?_mem h
    rw [List.eq_of_mem_replicate this]
    rfl

theorem field_new_wf (size : IndexPair) (n : Nat) : (Field.new size n).wf :=
  ⟨grid_new_wf size, grid_new_wf size, grid_new_wf size⟩

/-! ### Indicator-sum bookkeeping for `Grid.count` and the unopened count -/

theorem sum_indicator_update {l : List IndexPair} (hnd : l.Nodup) {i : IndexPair}
    (hmem : i ∈ l) {F G : IndexPair → Nat}
    (hother : ∀ j ∈ l, j ≠ i → G j = F j) (hself : G i = F i + 1) :
    (l.map G).sum = (l.map F).sum + 1 := by
  obtain ⟨l1, l2, rfl⟩ := List.append_of_mem hmem
  rw [List.nodup_append] at hnd
  obtain ⟨hnd1, hnd2, hdisj⟩ := hnd
  have hil1 : i ∉ l1 := fun h => hdisj h (List.mem_cons_self _ _)
  have hil2 : i ∉ l2 := (List.nodup_cons.1 hnd2).1
  have e1 : l1.map G = l1.map F :=
    List.map_congr_left (fun j hj => hother j (by simp [hj]) (fun h => hil1 (h ▸ hj)))
  have e2 : l2.map G = l2.map F :=
    List.map_congr_left (fun j hj => hother j (by simp [hj]) (fun h => hil2 (h ▸ hj)))
  simp only [List.map_append, List.map_cons, List.sum_append, List.sum_cons, e1, e2, hself]
  omega

theorem Grid.count_set_true {g : Grid} {size : IndexPair} (hwf : g.wf size)
    (hcol : 0 < size.col) {i : IndexPair} (hi : inB size i)
    (hfalse : g.get i = false) : (g.set i true).count = g.count + 1 := by
  unfold Grid.count
  rw [Grid.set_size]
  apply sum_indicator_update (GridIterator.nodup_all g.size)
  · rw [hwf.1]; exact (GridIterator.mem_all hcol).2 hi
  · intro j hj hne
    have hjb : inB size j := by
      rw [hwf.1] at hj
      exact (GridIterator.mem_all hcol).1 hj
    have hne' : g.position j ≠ g.position i :=
      fun hpos => hne (Grid.position_inj hwf.1 hjb hi hpos)
    rw [Grid.get_set_ne true hne']
  · rw [Grid.get_set_self _ _ (Grid.position_lt hwf hi), hfalse]
    simp

/-! ### Flood-fill machinery -/

/-- Unfolding of `open_at_fuel` at positive fuel, phrased with `open_core` and
`open_step`. -/
theorem Field.open_at_fuel_succ (fuel : Nat) (f : Field) (index : IndexPair) :
    Field.open_at_fuel (fuel + 1) f index =
      if f.opened.get index then f
      else if (f.open_core index).mines.get index
          || decide (0 < (f.open_core index).mines.sum_neighbors index) then
        f.open_core index
      else ((f.open_core index).opened.around index).foldl
        (Field.open_step fuel) (f.open_core index) := rfl

theorem Grid.get_set_true_mono {g : Grid} {c x : IndexPair} (h : g.get x = true) :
    (g.set c true).get x = true := by
  by_cases hpos : g.position x = g.position c
  · show (g.data.set (g.position c) true).getD (g.position x) false = true
    rw [hpos]
    by_cases hlt : g.position c < g.data.length
    · rw [List.getD_eq_getElem?_getD, List.getElem?_set_self hlt]
      rfl
    · rw [List.set_eq_of_length_le (by omega)]
      rw [← hpos]
      exact h
  · rw [Grid.get_set_ne true hpos]
    exact h

theorem pres_refl (f : Field) : Pres f f :=
  ⟨rfl, rfl, rfl, rfl, rfl, rfl, rfl, rfl, fun _ h => h⟩

theorem pres_trans {f g h : Field} (h1 : Pres f g) (h2 : Pres g h) : Pres f h := by
  obtain ⟨a1, a2, a3, a4, a5, a6, a7, a8, a9⟩ := h1
  obtain ⟨b1, b2, b3, b4, b5, b6, b7, b8, b9⟩ := h2
  exact ⟨b1.trans a1, b2.trans a2, b3.trans a3, b4.trans a4, b5.trans a5,
    b6.trans a6, b7.trans a7, b8.trans a8, fun x hx => b9 x (a9 x hx)⟩

theorem pres_wf {f g : Field} (h : Pres f g) (hwf : f.wf) : g.wf := by
  obtain ⟨a1, a2, a3, a4, a5, a6, a7, a8, a9⟩ := h
  obtain ⟨⟨m1, m2⟩, ⟨o1, o2⟩, ⟨l1, l2⟩⟩ := hwf
  refine ⟨⟨?_, ?_⟩, ⟨?_, ?_⟩, ⟨?_, ?_⟩⟩ <;>
    simp [a1, a4, a5, a6, a7, a8, m1, m2, o1, o2, l1, l2]

theorem pres_open_core (f : Field) (c : IndexPair) : Pres f (f.open_core c) := by
  refine ⟨rfl, rfl, rfl, rfl, rfl, ?_, rfl, ?_, ?_⟩
  · exact Grid.set_length _ _ _
  · exact Grid.set_length _ _ _
  · intro x hx
    exact Grid.get_set_true_mono hx

theorem pres_open_at_fuel : ∀ (fuel : Nat) (f : Field) (c : IndexPair),
    Pres f (Field.open_at_fuel fuel f c) := by
  intro fuel
  induction fuel with
  | zero => intro f c; exact pres_refl f
  | succ fuel ih =>
    have hfold : ∀ (js : List IndexPair) (g : Field),
        Pres g (js.foldl (Field.open_step fuel) g) := by
      intro js
      induction js with
      | nil => intro g; exact pres_refl g
      | cons j js ihjs =>
        intro g
        rw [List.foldl_cons]
        refine pres_trans ?_ (ihjs _)
        unfold Field.open_step
        split
        · exact ih g j
        · exact pres_refl g
    intro f c
    rw [Field.open_at_fuel_succ]
    split
    · exact pres_refl f
    · split
      · exact pres_open_core f c
      · exact pres_trans (pres_open_core f c) (hfold _ _)

theorem pres_foldl (fuel : Nat) (js : List IndexPair) (g : Field) :
    Pres g (js.foldl (Field.open_step fuel) g) := by
  induction js generalizing g with
  | nil => exact pres_refl g
  | cons j js ihjs =>
    rw [List.foldl_cons]
    refine pres_trans ?_ (ihjs _)
    unfold Field.open_step
    split
    · exact pres_open_at_fuel fuel g j
    · exact pres_refl g

theorem open_core_opened_self {f : Field} {c : IndexPair} (hwf : f.wf)
    (hc : inB f.size c) : (f.open_core c).opened.get c = true :=
  Grid.get_set_self c true (Grid.position_lt hwf.2.1 hc)

/-- A call with positive fuel always leaves its argument cell opened. -/
theorem opened_open_at_fuel {fuel : Nat} (f : Field) (c : IndexPair)
    (hwf : f.wf) (hc : inB f.size c) (hfuel : 1 ≤ fuel) :
    (Field.open_at_fuel fuel f c).opened.get c = true := by
  obtain ⟨fuel, rfl⟩ : ∃ k, fuel = k + 1 := ⟨fuel - 1, by omega⟩
  rw [Field.open_at_fuel_succ]
  split
  · assumption
  · split
    · exact open_core_opened_self hwf hc
    · exact (pres_foldl _ _ _).2.2.2.2.2.2.2.2 c (open_core_opened_self hwf hc)

theorem Pres.opened_mono {f g : Field} (h : Pres f g) :
    ∀ x, f.opened.get x = true → g.opened.get x = true :=
  h.2.2.2.2.2.2.2.2

theorem unopenedCount_le_of_pres {f g : Field} (h : Pres f g) :
    g.unopenedCount ≤ f.unopenedCount := by
  unfold Field.unopenedCount
  rw [h.1]
  apply List.sum_le_sum
  intro i _
  rcases hof : f.opened.get i with _ | _
  · split <;> simp
  · rw [h.opened_mono i hof]

theorem unopenedCount_open_core {f : Field} {c : IndexPair} (hwf : f.wf)
    (hc : inB f.size c) (hunop : f.opened.get c = false) :
    f.unopenedCount = (f.open_core c).unopenedCount + 1 := by
  have hcol : 0 < f.size.col := by have := hc.2; omega
  unfold Field.unopenedCount
  show (List.map _ (GridIterator.all f.size)).sum =
    (List.map _ (GridIterator.all f.size)).sum + 1
  apply sum_indicator_update (GridIterator.nodup_all f.size)
    ((GridIterator.mem_all hcol).2 hc)
  · intro j hj hne
    have hjb : inB f.size j := (GridIterator.mem_all hcol).1 hj
    have hpos : f.opened.position j ≠ f.opened.position c :=
      fun hp => hne (Grid.position_inj hwf.2.1.1 hjb hc hp)
    show _ = (if (f.opened.set c true).get j = true then (0 : Nat) else 1)
    rw [Grid.get_set_ne true hpos]
  · show (if f.opened.get c = true then 0 else 1) =
      (if (f.opened.set c true).get c = true then 0 else 1) + 1
    rw [hunop, Grid.get_set_self c true (Grid.position_lt hwf.2.1 hc)]
    simp

theorem open_core_around (f : Field) (c : IndexPair) (hwf : f.wf) :
    (f.open_core c).opened.around c = GridIterator.around f.size c := by
  show GridIterator.around (f.opened.set c true).size c = _
  rw [Grid.set_size, hwf.2.1.1]

/-- Soundness of the flood fill: every cell it opens lies in any set that
contains the starting cell and is closed under the cascade step. -/
theorem sound_open_at_fuel : ∀ (fuel : Nat) (f : Field) (c : IndexPair)
    (T : IndexPair → Prop), f.wf → inB f.size c →
    cascadeInvariant f.size f.mines T → T c →
    ∀ x, inB f.size x →
    (Field.open_at_fuel fuel f c).opened.get x = true →
    f.opened.get x = true ∨ T x := by
  intro fuel
  induction fuel with
  | zero => intro f c T hwf hc hT hTc x hx hop; exact Or.inl hop
  | succ fuel ih =>
    intro f c T hwf hc hT hTc
    rw [Field.open_at_fuel_succ]
    have hcore : ∀ x, inB f.size x →
        (f.open_core c).opened.get x = true → f.opened.get x = true ∨ x = c := by
      intro x hx hop
      by_cases hpos : f.opened.position x = f.opened.position c
      · exact Or.inr (Grid.position_inj hwf.2.1.1 hx hc hpos)
      · left
        rw [show (f.open_core c).opened = f.opened.set c true from rfl,
          Grid.get_set_ne true hpos] at hop
        exact hop
    split
    · intro x _ hop; exact Or.inl hop
    · split
      · intro x hx hop
        rcases hcore x hx hop with h | rfl
        · exact Or.inl h
        · exact Or.inr hTc
      · rename_i hnotop hbranch
        have hbr : f.mines.get c = false ∧ f.mines.sum_neighbors c = 0 := by
          simp only [show (f.open_core c).mines = f.mines from rfl, Bool.or_eq_true,
            decide_eq_true_eq] at hbranch
          push_neg at hbranch
          exact ⟨Bool.eq_false_iff.2 hbranch.1, by have := hbranch.2; omega⟩
        have hfold : ∀ (js : List IndexPair) (g : Field), g.wf → g.size = f.size →
            g.mines = f.mines → (∀ j ∈ js, inB f.size j) →
            (∀ j ∈ js, f.mines.get j = false → T j) →
            ∀ x, inB f.size x →
            (js.foldl (Field.open_step fuel) g).opened.get x = true →
            g.opened.get x = true ∨ T x := by
          intro js
          induction js with
          | nil => intro g _ _ _ _ _ x _ hop; exact Or.inl hop
          | cons j js ihjs =>
            intro g hgwf hgsz hgm hjb hjT x hx hop
            rw [List.foldl_cons] at hop
            have hstepPres : Pres g (Field.open_step fuel g j) := by
              unfold Field.open_step
              split
              · exact pres_open_at_fuel fuel g j
              · exact pres_refl g
            have hnext := ihjs (Field.open_step fuel g j) (pres_wf hstepPres hgwf)
              (hstepPres.1.trans hgsz) (hstepPres.2.2.2.1.trans hgm)
              (fun j' hj' => hjb j' (List.mem_cons_of_mem _ hj'))
              (fun j' hj' => hjT j' (List.mem_cons_of_mem _ hj'))
              x hx hop
            rcases hnext with h | h
            · unfold Field.open_step at h
              split at h
              · rename_i hguard
                rw [Bool.and_eq_true, Bool.not_eq_true', Bool.not_eq_true'] at hguard
                have hjb' : inB f.size j := hjb j (List.mem_cons_self _ _)
                have hTj : T j :=
                  hjT j (List.mem_cons_self _ _) (by rw [← hgm]; exact hguard.2)
                exact ih g j T hgwf (by rw [hgsz]; exact hjb')
                  (by rw [hgsz, hgm]; exact hT) hTj x (by rw [hgsz]; exact hx) h
              · exact Or.inl h
            · exact Or.inr h
        intro x hx hop
        have hjsb : ∀ j ∈ (f.open_core c).opened.around c, inB f.size j := by
          intro j hj
          rw [open_core_around f c hwf] at hj
          exact GridIterator.around_inB hc hj
        have hjsT : ∀ j ∈ (f.open_core c).opened.around c,
            f.mines.get j = false → T j := by
          intro j hj hjm
          rw [open_core_around f c hwf] at hj
          exact hT c hTc hbr.1 hbr.2 j hj hjm
        rcases hfold _ (f.open_core c) (pres_wf (pres_open_core f c) hwf)
          rfl rfl hjsb hjsT x hx hop with h | h
        · rcases hcore x hx h with h' | rfl
          · exact Or.inl h'
          · exact Or.inr hTc
        · exact Or.inr h

/-! ### Completeness of the flood fill: closure preservation -/

theorem unopenedCount_le_total {f : Field} :
    f.unopenedCount ≤ (GridIterator.all f.size).length := by
  unfold Field.unopenedCount
  have h := List.sum_le_card_nsmul
    ((GridIterator.all f.size).map (fun i => if f.opened.get i then 0 else 1)) 1 ?_
  · rw [List.length_map, smul_eq_mul, Nat.mul_one] at h
    exact h
  · intro x hx
    obtain ⟨i, _, rfl⟩ := List.mem_map.1 hx
    split <;> omega

/-- The flood fill preserves `cascadeClosed` when the fuel exceeds the number
of unopened cells (which the top-level fuel always does). -/
theorem closed_open_at_fuel : ∀ (fuel : Nat) (f : Field) (c : IndexPair)
    (exc : List IndexPair), f.wf → inB f.size c →
    f.unopenedCount < fuel → cascadeClosed f exc →
    cascadeClosed (Field.open_at_fuel fuel f c) exc := by
  intro fuel
  induction fuel with
  | zero => intro f c exc _ _ hfu _; omega
  | succ fuel ih =>
    intro f c exc hwf hc hfu hcl
    have hcol : 0 < f.size.col := by have := hc.2; omega
    rw [Field.open_at_fuel_succ]
    split
    · exact hcl
    · rename_i hnotop
      have hunop : f.opened.get c = false := Bool.eq_false_iff.2 hnotop
      have hdec : f.unopenedCount = (f.open_core c).unopenedCount + 1 :=
        unopenedCount_open_core hwf hc hunop
      have hfu2 : (f.open_core c).unopenedCount < fuel := by omega
      have hf2wf : (f.open_core c).wf := pres_wf (pres_open_core f c) hwf
      have hcore_get : ∀ i, inB f.size i → i ≠ c →
          (f.open_core c).opened.get i = f.opened.get i := by
        intro i hib hne
        have hpos : f.opened.position i ≠ f.opened.position c :=
          fun hp => hne (Grid.position_inj hwf.2.1.1 hib hc hp)
        exact Grid.get_set_ne true hpos
      split
      · rename_i hbranch
        -- the cell is a mine or has a positive neighbour count: no cascade
        intro i hi hiop him his hiexc j hj hjm
        have hi' : i ∈ GridIterator.all f.size := hi
        have hib : inB f.size i := (GridIterator.mem_all hcol).1 hi'
        have him' : f.mines.get i = false := him
        have his' : f.mines.sum_neighbors i = 0 := his
        have hjm' : f.mines.get j = false := hjm
        have hj' : j ∈ GridIterator.around f.size i := hj
        have hbranch' :
            (f.mines.get c || decide (0 < f.mines.sum_neighbors c)) = true := hbranch
        by_cases hic : i = c
        · exfalso
          rw [← hic, Bool.or_eq_true, decide_eq_true_eq] at hbranch'
          rcases hbranch' with hb | hb
          · rw [him'] at hb
            simp at hb
          · omega
        · have hiop' : f.opened.get i = true := by
            rw [← hcore_get i hib hic]
            exact hiop
          have hres := hcl i hi' hiop' him' his' hiexc j hj' hjm'
          exact Grid.get_set_true_mono hres
      · rename_i hbranch
        have hbr : f.mines.get c = false ∧ f.mines.sum_neighbors c = 0 := by
          simp only [show (f.open_core c).mines = f.mines from rfl, Bool.or_eq_true,
            decide_eq_true_eq] at hbranch
          push_neg at hbranch
          exact ⟨Bool.eq_false_iff.2 hbranch.1, by have := hbranch.2; omega⟩
        have hfold : ∀ (js : List IndexPair) (g : Field), g.wf → g.size = f.size →
            g.mines = f.mines → (∀ j ∈ js, inB f.size j) →
            g.unopenedCount < fuel →
            cascadeClosed g (c :: exc) →
            cascadeClosed (js.foldl (Field.open_step fuel) g) (c :: exc) ∧
            (∀ j ∈ js, f.mines.get j = false →
              (js.foldl (Field.open_step fuel) g).opened.get j = true) := by
          intro js
          induction js with
          | nil =>
            intro g _ _ _ _ _ hgcl
            exact ⟨hgcl, fun j hj => absurd hj (List.not_mem_nil j)⟩
          | cons j js ihjs =>
            intro g hgwf hgsz hgm hjb hgu hgcl
            have hfuel1 : 1 ≤ fuel := by omega
            have hjb' : inB f.size j := hjb j (List.mem_cons_self _ _)
            have hstepPres : Pres g (Field.open_step fuel g j) := by
              unfold Field.open_step
              split
              · exact pres_open_at_fuel fuel g j
              · exact pres_refl g
            have hstepcl : cascadeClosed (Field.open_step fuel g j) (c :: exc) := by
              unfold Field.open_step
              split
              · exact ih g j (c :: exc) hgwf (by rw [hgsz]; exact hjb') hgu hgcl
              · exact hgcl
            have hstepop : f.mines.get j = false →
                (Field.open_step fuel g j).opened.get j = true := by
              intro hjm
              unfold Field.open_step
              split
              · exact opened_open_at_fuel g j hgwf (by rw [hgsz]; exact hjb') hfuel1
              · rename_i hguard
                rw [Bool.and_eq_true, Bool.not_eq_true', Bool.not_eq_true'] at hguard
                push_neg at hguard
                rcases Bool.eq_false_or_eq_true (g.opened.get j) with ho | ho
                · exact ho
                · exfalso
                  have hgm' : g.mines.get j = false := by rw [hgm]; exact hjm
                  exact hguard ho hgm'

            have hnext := ihjs (Field.open_step fuel g j)
              (pres_wf hstepPres hgwf)
              (hstepPres.1.trans hgsz) (hstepPres.2.2.2.1.trans hgm)
              (fun j' hj' => hjb j' (List.mem_cons_of_mem _ hj'))
              (lt_of_le_of_lt (unopenedCount_le_of_pres hstepPres) hgu)
              hstepcl
            rw [List.foldl_cons]
            refine ⟨hnext.1, ?_⟩
            intro j0 hj0 hj0m
            rcases List.mem_cons.1 hj0 with rfl | hj0'
            · exact (pres_foldl fuel js (Field.open_step fuel g j0)).opened_mono j0
                (hstepop hj0m)
            · exact hnext.2 j0 hj0' hj0m
        -- initial state of the fold: `open_core` with the exception `c`
        have hf2cl : cascadeClosed (f.open_core c) (c :: exc) := by
          intro i hi hiop him his hiexc j hj hjm
          have hib : inB f.size i := (GridIterator.mem_all hcol).1 hi
          have hic : i ≠ c := fun h => hiexc (h ▸ List.mem_cons_self _ _)
          have hiop' : f.opened.get i = true := by
            rw [← hcore_get i hib hic]; exact hiop
          have hiexc' : i ∉ exc := fun h => hiexc (List.mem_cons_of_mem _ h)
          have hres := hcl i hi hiop' him his hiexc' j hj hjm
          exact Grid.get_set_true_mono hres
        have hjsb : ∀ j ∈ (f.open_core c).opened.around c, inB f.size j := by
          intro j hj
          rw [open_core_around f c hwf] at hj
          exact GridIterator.around_inB hc hj
        obtain ⟨hRcl, hRop⟩ := hfold ((f.open_core c).opened.around c) (f.open_core c)
          hf2wf rfl rfl hjsb hfu2 hf2cl
        have hpresR : Pres f (((f.open_core c).opened.around c).foldl
            (Field.open_step fuel) (f.open_core c)) :=
          pres_trans (pres_open_core f c) (pres_foldl _ _ _)
        -- discharge the exception `c`: its obligations are now met
        intro i hi hiop him his hiexc j hj hjm
        by_cases hic : i = c
        · have hj' : j ∈ (f.open_core c).opened.around c := by
            rw [open_core_around f c hwf]
            rw [hpresR.1, hic] at hj
            exact hj
          have hjm' : f.mines.get j = false := by
            rw [hpresR.2.2.2.1] at hjm
            exact hjm
          exact hRop j hj' hjm'
        · exact hRcl i hi hiop him his
            (fun h => (List.mem_cons.1 h).elim (fun h' => hic h') (fun h' => hiexc h'))
            j hj hjm

/-! ### The region opened by a flood fill -/

theorem cascadeSet_inB {f : Field} {c : IndexPair} (hc : inB f.size c) :
    ∀ x, CascadeSet f c x → inB f.size x := by
  intro x hx
  induction hx with
  | base => exact hc
  | step d e _ _ _ hde _ ihd => exact GridIterator.around_inB ihd hde

theorem cascadeSet_not_mine {f : Field} {c : IndexPair}
    (hm : f.mines.get c = false) :
    ∀ x, CascadeSet f c x → f.mines.get x = false := by
  intro x hx
  induction hx with
  | base => exact hm
  | step d e _ _ _ _ hem _ => exact hem

theorem zeroCluster_zero {f : Field} {c : IndexPair} (hm : f.mines.get c = false)
    (hz : f.mines.sum_neighbors c = 0) :
    ∀ x, ZeroCluster f c x → f.mines.get x = false ∧ f.mines.sum_neighbors x = 0 := by
  intro x hx
  induction hx with
  | base => exact ⟨hm, hz⟩
  | step d e _ _ hem hez _ => exact ⟨hem, hez⟩

theorem zeroCluster_cascadeSet {f : Field} {c : IndexPair}
    (hm : f.mines.get c = false) (hz : f.mines.sum_neighbors c = 0) :
    ∀ x, ZeroCluster f c x → CascadeSet f c x := by
  intro x hx
  induction hx with
  | base => exact CascadeSet.base
  | step d e hd hde hem _ ihd =>
    obtain ⟨hdm, hdz⟩ := zeroCluster_zero hm hz d hd
    exact CascadeSet.step d e ihd hdm hdz hde hem

/-- The cascade set is exactly the zero cluster together with its non-mine
border (the claim's "maximal connected zero region plus bordering numbered
cells"; a bordering cell with zero count is itself in the cluster). -/
theorem cascadeSet_iff_cluster_or_border {f : Field} {c : IndexPair}
    (hm : f.mines.get c = false) (hz : f.mines.sum_neighbors c = 0) :
    ∀ x, CascadeSet f c x ↔ (ZeroCluster f c x ∨
      (f.mines.get x = false ∧
        ∃ d, ZeroCluster f c d ∧ x ∈ GridIterator.around f.size d)) := by
  intro x
  constructor
  · intro hx
    induction hx with
    | base => exact Or.inl ZeroCluster.base
    | step d e hd hdm hdz hde hem ihd =>
      have hdc : ZeroCluster f c d := by
        rcases ihd with h | ⟨hdm', d', hd', hdd'⟩
        · exact h
        · exact ZeroCluster.step d' d hd' hdd' hdm hdz
      by_cases hez : f.mines.sum_neighbors e = 0
      · exact Or.inl (ZeroCluster.step d e hdc hde hem hez)
      · exact Or.inr ⟨hem, d, hdc, hde⟩
  · rintro (hx | ⟨hxm, d, hd, hxd⟩)
    · exact zeroCluster_cascadeSet hm hz x hx
    · obtain ⟨hdm, hdz⟩ := zeroCluster_zero hm hz d hd
      exact CascadeSet.step d x (zeroCluster_cascadeSet hm hz d hd) hdm hdz hxd hxm

/-! ### Top-level flood-fill characterisation -/

theorem unopenedCount_lt_fuel {f : Field} (hcol : 0 < f.size.col) :
    f.unopenedCount < f.size.row * f.size.col + 1 := by
  have h : f.unopenedCount ≤ (GridIterator.all f.size).length :=
    unopenedCount_le_total
  rw [GridIterator.length_all hcol] at h
  omega

theorem open_at_pres (f : Field) (c : IndexPair) : Pres f (f.open_at c) :=
  pres_open_at_fuel _ f c

theorem open_at_opened_self {f : Field} (c : IndexPair) (hwf : f.wf)
    (hc : inB f.size c) : (f.open_at c).opened.get c = true :=
  opened_open_at_fuel f c hwf hc (by omega)

theorem closed_open_at {f : Field} (c : IndexPair) (hwf : f.wf)
    (hc : inB f.size c) (hclosed : cascadeClosed f []) :
    cascadeClosed (f.open_at c) [] :=
  closed_open_at_fuel _ f c [] hwf hc
    (unopenedCount_lt_fuel (by have := hc.2; omega)) hclosed

/-- Completeness: with a cascade-closed start state, every cell of the cascade
set is opened by `open_at`. -/
theorem cascadeSet_opened {f : Field} {c : IndexPair} (hwf : f.wf)
    (hc : inB f.size c) (hclosed : cascadeClosed f []) :
    ∀ x, CascadeSet f c x → (f.open_at c).opened.get x = true := by
  have hcol : 0 < f.size.col := by have := hc.2; omega
  have hcl := closed_open_at c hwf hc hclosed
  have hpres := open_at_pres f c
  intro x hx
  induction hx with
  | base => exact open_at_opened_self c hwf hc
  | step d e hd hdm hdz hde hem ihd =>
    have hdb : inB f.size d := cascadeSet_inB hc d hd
    refine hcl d ?_ ihd ?_ ?_ (List.not_mem_nil d) e ?_ ?_
    · rw [show (f.open_at c).size = f.size from hpres.1]
      exact (GridIterator.mem_all hcol).2 hdb
    · rw [show (f.open_at c).mines = f.mines from hpres.2.2.2.1]
      exact hdm
    · rw [show (f.open_at c).mines = f.mines from hpres.2.2.2.1]
      exact hdz
    · rw [show (f.open_at c).size = f.size from hpres.1]
      exact hde
    · rw [show (f.open_at c).mines = f.mines from hpres.2.2.2.1]
      exact hem

/-- Soundness at the top level: every cell opened by `open_at` was opened
before or lies in the cascade set. -/
theorem open_at_opened_sound {f : Field} {c : IndexPair} (hwf : f.wf)
    (hc : inB f.size c) :
    ∀ x, inB f.size x → (f.open_at c).opened.get x = true →
      f.opened.get x = true ∨ CascadeSet f c x := by
  intro x hx hop
  exact sound_open_at_fuel _ f c (CascadeSet f c) hwf hc
    (fun d hd hdm hdz e hde hem => CascadeSet.step d e hd hdm hdz hde hem)
    CascadeSet.base x hx hop

/-! ### Mine allocation -/

theorem length_filter_add_length_filter_not (l : List IndexPair)
    (p : IndexPair → Bool) :
    (l.filter p).length + (l.filter (fun a => !p a)).length = l.length := by
  induction l with
  | nil => rfl
  | cons a l ih =>
    rcases h : p a with _ | _ <;> simp [List.filter_cons, h] <;> omega

theorem mem_eligible {f : Field} {start x : IndexPair} :
    x ∈ f.eligible_indices start ↔
      x ∈ GridIterator.all f.size ∧ x ∉ f.mines.around start := by
  unfold Field.eligible_indices
  rw [List.mem_filter]
  simp

theorem eligible_nodup (f : Field) (start : IndexPair) :
    (f.eligible_indices start).Nodup :=
  (GridIterator.nodup_all f.size).filter _

theorem mines_around_eq {f : Field} (hwf : f.wf) (start : IndexPair) :
    f.mines.around start = GridIterator.around f.size start := by
  unfold Grid.around
  rw [hwf.1.1]

theorem length_eligible {f : Field} {start : IndexPair} (hwf : f.wf)
    (hb : inB f.size start) :
    (f.eligible_indices start).length =
      f.size.row * f.size.col - (GridIterator.around f.size start).length := by
  have hcol : 0 < f.size.col := by have := hb.2; omega
  have hsplit := length_filter_add_length_filter_not (GridIterator.all f.size)
    (fun x => decide (x ∈ GridIterator.around f.size start))
  have hin : ((GridIterator.all f.size).filter
      (fun x => decide (x ∈ GridIterator.around f.size start))).length =
      (GridIterator.around f.size start).length := by
    apply List.Perm.length_eq
    apply List.perm_of_nodup_nodup_toFinset_eq
    · exact (GridIterator.nodup_all _).filter _
    · exact GridIterator.nodup_around _ _
    · ext x
      simp only [List.mem_toFinset, List.mem_filter, decide_eq_true_eq]
      constructor
      · rintro ⟨_, h⟩
        exact h
      · intro h
        exact ⟨(GridIterator.mem_all hcol).2 (GridIterator.around_inB hb h), h⟩
  have hpred : f.eligible_indices start = (GridIterator.all f.size).filter
      (fun x => !decide (x ∈ GridIterator.around f.size start)) := by
    unfold Field.eligible_indices
    rw [mines_around_eq hwf]
    congr 1
    funext x
    rw [decide_not]
  rw [hpred]
  rw [GridIterator.length_all hcol] at hsplit
  omega

theorem foldl_set_size (L : List IndexPair) (g : Grid) :
    (L.foldl (fun g i => g.set i true) g).size = g.size := by
  induction L generalizing g with
  | nil => rfl
  | cons i L ih => rw [List.foldl_cons, ih, Grid.set_size]

theorem foldl_set_length (L : List IndexPair) (g : Grid) :
    (L.foldl (fun g i => g.set i true) g).data.length = g.data.length := by
  induction L generalizing g with
  | nil => rfl
  | cons i L ih => rw [List.foldl_cons, ih, Grid.set_length]

theorem count_foldl_set_true : ∀ (L : List IndexPair) (g : Grid) (size : IndexPair),
    g.wf size → 0 < size.col → L.Nodup → (∀ i ∈ L, inB size i) →
    (∀ i ∈ L, g.get i = false) →
    (L.foldl (fun g i => g.set i true) g).count = g.count + L.length := by
  intro L
  induction L with
  | nil => intro g _ _ _ _ _ _; simp
  | cons i L ih =>
    intro g size hwf hcol hnd hin hfl
    rw [List.foldl_cons]
    have hmem : i ∈ i :: L := List.mem_cons_self _ _
    have h1 : (g.set i true).count = g.count + 1 :=
      Grid.count_set_true hwf hcol (hin i hmem) (hfl i hmem)
    have hothers : ∀ j ∈ L, (g.set i true).get j = false := by
      intro j hj
      have hji : j ≠ i := fun h => (List.nodup_cons.1 hnd).1 (h ▸ hj)
      have hpos : g.position j ≠ g.position i := fun hp =>
        hji (Grid.position_inj hwf.1 (hin j (List.mem_cons_of_mem _ hj))
          (hin i hmem) hp)
      rw [Grid.get_set_ne true hpos]
      exact hfl j (List.mem_cons_of_mem _ hj)
    rw [ih (g.set i true) size (Grid.wf_set hwf i true) hcol (List.nodup_cons.1 hnd).2
      (fun j hj => hin j (List.mem_cons_of_mem _ hj)) hothers, h1, List.length_cons]
    omega

theorem get_foldl_set_true_not_mem : ∀ (L : List IndexPair) (g : Grid)
    (size : IndexPair), g.size = size → (∀ i ∈ L, inB size i) →
    ∀ j, inB size j → j ∉ L →
    (L.foldl (fun g i => g.set i true) g).get j = g.get j := by
  intro L
  induction L with
  | nil => intro g _ _ _ _ _ _; rfl
  | cons i L ih =>
    intro g size hsz hin j hj hnot
    rw [List.foldl_cons]
    have hji : j ≠ i := fun h => hnot (h ▸ List.mem_cons_self _ _)
    have hpos : g.position j ≠ g.position i := fun hp =>
      hji (Grid.position_inj hsz hj (hin i (List.mem_cons_self _ _)) hp)
    rw [ih (g.set i true) size (by rw [Grid.set_size, hsz])
      (fun x hx => hin x (List.mem_cons_of_mem _ hx)) j hj
      (fun h => hnot (List.mem_cons_of_mem _ h))]
    exact Grid.get_set_ne true hpos

theorem Grid.count_new (size : IndexPair) : (Grid.new size).count = 0 := by
  unfold Grid.count
  apply List.sum_eq_zero
  intro x hx
  obtain ⟨i, _, rfl⟩ := List.mem_map.1 hx
  rw [Grid.get_new]
  rfl

/-- Full specification of a successful `allocate_mines` on a mine-free field:
exactly `n_mines` distinct cells are mined, none of them in the clipped 3×3
safe zone of the starting cell, nothing else changes, and the allocation flag
is set. -/
theorem allocate_mines_spec {f : Field} {start : IndexPair} {sh : List IndexPair}
    (hwf : f.wf) (hmines0 : f.mines = Grid.new f.size) (hb : inB f.size start)
    (hperm : sh.Perm (f.eligible_indices start)) (hlen : f.n_mines ≤ sh.length) :
    ∃ f', f.allocate_mines sh = some f' ∧
      f'.are_mines_allocated = true ∧
      f'.mines.count = f.n_mines ∧
      (∀ j ∈ GridIterator.around f.size start, f'.mines.get j = false) ∧
      f'.opened = f.opened ∧ f'.flags = f.flags ∧ f'.size = f.size ∧
      f'.n_mines = f.n_mines ∧ f'.wf := by
  have hcol : 0 < f.size.col := by have := hb.2; omega
  refine ⟨{ f with
      mines := (sh.take f.n_mines).foldl (fun g i => g.set i true) f.mines,
      are_mines_allocated := true },
    by unfold Field.allocate_mines; rw [if_pos hlen], rfl, ?_, ?_, rfl, rfl,
    rfl, rfl, ?_⟩
  · -- exact count
    have htake_nd : (sh.take f.n_mines).Nodup :=
      (List.take_sublist _ _).nodup (hperm.symm.nodup (eligible_nodup f start))
    have htake_in : ∀ i ∈ sh.take f.n_mines, inB f.size i := by
      intro i hi
      have : i ∈ f.eligible_indices start :=
        hperm.mem_iff.1 ((List.take_sublist _ _).subset hi)
      exact (GridIterator.mem_all hcol).1 (mem_eligible.1 this).1
    have htake_false : ∀ i ∈ sh.take f.n_mines, f.mines.get i = false := by
      intro i _
      rw [hmines0]
      exact Grid.get_new _ _
    rw [count_foldl_set_true _ f.mines f.size hwf.1 hcol htake_nd htake_in htake_false]
    rw [hmines0, Grid.count_new, List.length_take]
    omega
  · -- safe zone is mine-free
    intro j hj
    have hjb : inB f.size j := GridIterator.around_inB hb hj
    have hjnot : j ∉ sh.take f.n_mines := by
      intro hmem
      have : j ∈ f.eligible_indices start :=
        hperm.mem_iff.1 ((List.take_sublist _ _).subset hmem)
      have := (mem_eligible.1 this).2
      rw [mines_around_eq hwf] at this
      exact this hj
    have htake_in : ∀ i ∈ sh.take f.n_mines, inB f.size i := by
      intro i hi
      have : i ∈ f.eligible_indices start :=
        hperm.mem_iff.1 ((List.take_sublist _ _).subset hi)
      exact (GridIterator.mem_all hcol).1 (mem_eligible.1 this).1
    rw [get_foldl_set_true_not_mem _ f.mines f.size hwf.1.1 htake_in j hjb hjnot]
    rw [hmines0]
    exact Grid.get_new _ _
  · -- well-formedness of the result
    refine ⟨⟨?_, ?_⟩, hwf.2.1, hwf.2.2⟩
    · rw [foldl_set_size, hwf.1.1]
    · rw [foldl_set_length, hwf.1.2]

/-! ### The flag/open exclusion invariant -/

theorem Grid.set_oob {g : Grid} {i : IndexPair} (v : Bool)
    (h : g.data.length ≤ g.position i) : g.set i v = g := by
  unfold Grid.set
  rw [List.set_eq_of_length_le h]

theorem Grid.get_set_pos_eq {g : Grid} {i j : IndexPair} (v : Bool)
    (hpos : g.position j = g.position i) (hlt : g.position i < g.data.length) :
    (g.set i v).get j = v := by
  show (g.data.set (g.position i) v).getD (g.position j) false = v
  rw [hpos, List.getD_eq_getElem?_getD, List.getElem?_set_self hlt]
  rfl

theorem Grid.position_congr {g h : Grid} (hsz : g.size.col = h.size.col)
    (i : IndexPair) : g.position i = h.position i := by
  unfold Grid.position
  rw [hsz]

theorem flagInv_open_core {f : Field} (hwf : f.wf) (c : IndexPair)
    (hinv : flagInv f) : flagInv (f.open_core c) := by
  intro x hx
  rintro ⟨hop, hfl⟩
  have hx' : inB f.size x := hx
  have hcolppf : f.opened.size.col = f.flags.size.col := by
    rw [hwf.2.1.1, hwf.2.2.1]
  have hpc : ∀ i, f.opened.position i = f.flags.position i :=
    fun i => Grid.position_congr hcolppf i
  have hlen : f.opened.data.length = f.flags.data.length := by
    rw [hwf.2.1.2, hwf.2.2.2]
  by_cases hpos : f.opened.position x = f.opened.position c
  · by_cases hlt : f.opened.position c < f.opened.data.length
    · have hposf : f.flags.position x = f.flags.position c := by
        rw [← hpc x, ← hpc c]
        exact hpos
      have hltf : f.flags.position c < f.flags.data.length := by
        rw [← hpc c, ← hlen]
        exact hlt
      have hfl' : (f.flags.set c false).get x = false :=
        Grid.get_set_pos_eq false hposf hltf
      rw [show (f.open_core c).flags = f.flags.set c false from rfl, hfl'] at hfl
      exact absurd hfl (by simp)
    · have ho : f.opened.set c true = f.opened := Grid.set_oob true (by omega)
      have hf : f.flags.set c false = f.flags := Grid.set_oob false (by
        have := hpc c
        omega)
      rw [show (f.open_core c).opened = f.opened.set c true from rfl, ho] at hop
      rw [show (f.open_core c).flags = f.flags.set c false from rfl, hf] at hfl
      exact hinv x hx' ⟨hop, hfl⟩
  · have hposf : f.flags.position x ≠ f.flags.position c := by
      rw [← hpc x, ← hpc c]
      exact hpos
    rw [show (f.open_core c).opened = f.opened.set c true from rfl,
      Grid.get_set_ne true hpos] at hop
    rw [show (f.open_core c).flags = f.flags.set c false from rfl,
      Grid.get_set_ne false hposf] at hfl
    exact hinv x hx' ⟨hop, hfl⟩

theorem flagInv_open_at_fuel : ∀ (fuel : Nat) (f : Field) (c : IndexPair),
    f.wf → flagInv f → flagInv (Field.open_at_fuel fuel f c) := by
  intro fuel
  induction fuel with
  | zero => intro f c _ h; exact h
  | succ fuel ih =>
    intro f c hwf hinv
    rw [Field.open_at_fuel_succ]
    split
    · exact hinv
    · have hinv2 : flagInv (f.open_core c) := flagInv_open_core hwf c hinv
      have hwf2 : (f.open_core c).wf := pres_wf (pres_open_core f c) hwf
      split
      · exact hinv2
      · have hfold : ∀ (js : List IndexPair) (g : Field), g.wf → flagInv g →
            flagInv (js.foldl (Field.open_step fuel) g) := by
          intro js
          induction js with
          | nil => intro g _ h; exact h
          | cons j js ihjs =>
            intro g hgwf hg
            rw [List.foldl_cons]
            have hs : Pres g (Field.open_step fuel g j) := by
              unfold Field.open_step
              split
              · exact pres_open_at_fuel fuel g j
              · exact pres_refl g
            apply ihjs _ (pres_wf hs hgwf)
            unfold Field.open_step
            split
            · exact ih g j hgwf hg
            · exact hg
        exact hfold _ _ hwf2 hinv2

theorem wf_force {f : Field} (hwf : f.wf) (c : IndexPair) :
    (f.handle_force_click c).1.wf := by
  unfold Field.handle_force_click
  split
  · exact ⟨hwf.1, hwf.2.1, Grid.wf_set hwf.2.2 _ _⟩
  · exact hwf

theorem flagInv_force {f : Field} (hwf : f.wf) (c : IndexPair) (hinv : flagInv f) :
    flagInv (f.handle_force_click c).1 := by
  unfold Field.handle_force_click
  split
  · rename_i hguard
    intro x hx
    rintro ⟨hop, hfl⟩
    have hx' : inB f.size x := hx
    have hcolppf : f.opened.size.col = f.flags.size.col := by
      rw [hwf.2.1.1, hwf.2.2.1]
    have hpc : ∀ i, f.opened.position i = f.flags.position i :=
      fun i => Grid.position_congr hcolppf i
    by_cases hpos : f.flags.position x = f.flags.position c
    · have hoc : f.opened.get x = f.opened.get c := by
        show f.opened.data.getD (f.opened.position x) false =
          f.opened.data.getD (f.opened.position c) false
        rw [hpc x, hpc c, hpos]
      rw [Bool.not_eq_true'] at hguard
      have hop' : f.opened.get x = true := hop
      rw [hoc, hguard] at hop'
      exact absurd hop' (by simp)
    · have hfl' : (f.flags.set c (!f.flags.get c)).get x = f.flags.get x :=
        Grid.get_set_ne _ hpos
      have hfl2 : f.flags.get x = true := by rw [← hfl']; exact hfl
      exact hinv x hx' ⟨hop, hfl2⟩
  · intro x hx h
    exact hinv x hx h

theorem allocate_some_parts {f f' : Field} {sh : List IndexPair}
    (h : f.allocate_mines sh = some f') :
    f'.size = f.size ∧ f'.opened = f.opened ∧ f'.flags = f.flags ∧
    f'.n_mines = f.n_mines ∧ f'.are_mines_allocated = true ∧
    f'.mines.size = f.mines.size ∧ f'.mines.data.length = f.mines.data.length := by
  unfold Field.allocate_mines at h
  split at h
  · injection h with h
    subst h
    exact ⟨rfl, rfl, rfl, rfl, rfl, foldl_set_size _ _, foldl_set_length _ _⟩
  · exact absurd h (by simp)

theorem wf_allocate {f f' : Field} {sh : List IndexPair} (hwf : f.wf)
    (h : f.allocate_mines sh = some f') : f'.wf := by
  obtain ⟨h1, h2, h3, _, _, h6, h7⟩ := allocate_some_parts h
  refine ⟨⟨?_, ?_⟩, ?_, ?_⟩
  · rw [h6, h1]
    exact hwf.1.1
  · rw [h7, h1]
    exact hwf.1.2
  · rw [h2, h1]
    exact hwf.2.1
  · rw [h3, h1]
    exact hwf.2.2

theorem flagInv_allocate {f f' : Field} {sh : List IndexPair} (hinv : flagInv f)
    (h : f.allocate_mines sh = some f') : flagInv f' := by
  obtain ⟨h1, h2, h3, _⟩ := allocate_some_parts h
  intro x hx hc
  apply hinv x (by rw [← h1]; exact hx)
  rcases hc with ⟨ho, hf⟩
  rw [h2] at ho
  rw [h3] at hf
  exact ⟨ho, hf⟩

theorem click_some_wf_inv {f f' : Field} {c : IndexPair} {sh : List IndexPair}
    {r : ClickResult} (hwf : f.wf) (hinv : flagInv f)
    (h : f.handle_click c sh = some (f', r)) : f'.wf ∧ flagInv f' := by
  unfold Field.handle_click at h
  rcases halloc : (if f.are_mines_allocated then some f else f.allocate_mines sh)
    with _ | f1
  · rw [halloc] at h
    exact absurd h (by simp)
  · rw [halloc] at h
    have hf1 : f1.wf ∧ flagInv f1 := by
      split at halloc
      · injection halloc with he
        subst he
        exact ⟨hwf, hinv⟩
      · exact ⟨wf_allocate hwf halloc, flagInv_allocate hinv halloc⟩
    have hopen : (f1.open_at c).wf ∧ flagInv (f1.open_at c) :=
      ⟨pres_wf (open_at_pres f1 c) hf1.1, flagInv_open_at_fuel _ f1 c hf1.1 hf1.2⟩
    dsimp only at h
    split at h
    · rw [Option.some.injEq, Prod.mk.injEq] at h
      obtain ⟨h1, _⟩ := h
      subst h1
      exact hf1
    · split at h
      · rw [Option.some.injEq, Prod.mk.injEq] at h
        obtain ⟨h1, _⟩ := h
        subst h1
        exact hopen
      · rw [Option.some.injEq, Prod.mk.injEq] at h
        obtain ⟨h1, _⟩ := h
        subst h1
        exact hopen

theorem fieldReach_wf_inv {size : IndexPair} {n : Nat} {f : Field}
    (h : FieldReach size n f) : f.wf ∧ flagInv f := by
  induction h with
  | init =>
    refine ⟨field_new_wf size n, ?_⟩
    intro x _ hc
    rw [show (Field.new size n).opened = Grid.new size from rfl, Grid.get_new] at hc
    exact absurd hc.1 (by simp)
  | click f c sh f' r hr hcl ih => exact click_some_wf_inv ih.1 ih.2 hcl
  | force f c hr ih => exact ⟨wf_force ih.1 c, flagInv_force ih.1 c ih.2⟩
  | openStep f c hr ih =>
    exact ⟨pres_wf (open_at_pres f c) ih.1, flagInv_open_at_fuel _ f c ih.1 ih.2⟩

/-! ### Coordinate translation -/

/-- Closed form of `convert_absolute_to_relative` for a fresh game (origin
`(1,1)`, two-character-wide columns). -/
theorem convert_spec (size : IndexPair) (n : Nat) (p : IndexPair) :
    (GameState.new size n).convert_absolute_to_relative p =
      if 1 ≤ p.row ∧ 1 ≤ p.col ∧ p.row - 1 < size.row ∧ (p.col - 1) / 2 < size.col
      then some ⟨p.row - 1, (p.col - 1) / 2⟩ else none := by
  unfold GameState.convert_absolute_to_relative GameState.new Field.new
  dsimp only
  split_ifs with h1 h2 h3 <;> first | rfl | omega

/-! ### Claim theorems -/

/-- C9 (confirmed): with origin `(1,1)` and 2-character-wide columns, raw
position (1,1) maps to grid cell (0,0) and raw (1,3) to grid cell (0,1);
every raw position above or left of the origin (including (0,0)) and every
raw position past the grid extent maps to `none` rather than an error. -/
theorem C9_coordinate_translation (size : IndexPair) (n : Nat)
    (hr : 0 < size.row) (hc2 : 1 < size.col) :
    ((GameState.new size n).convert_absolute_to_relative ⟨1, 1⟩ = some ⟨0, 0⟩) ∧
    ((GameState.new size n).convert_absolute_to_relative ⟨1, 3⟩ = some ⟨0, 1⟩) ∧
    (∀ p : IndexPair, p.row < 1 ∨ p.col < 1 →
      (GameState.new size n).convert_absolute_to_relative p = none) ∧
    (∀ p : IndexPair, 1 ≤ p.row → 1 ≤ p.col →
      (size.row ≤ p.row - 1 ∨ size.col ≤ (p.col - 1) / 2) →
      (GameState.new size n).convert_absolute_to_relative p = none) := by
  refine ⟨?_, ?_, ?_, ?_⟩
  · rw [convert_spec, if_pos (by dsimp only; omega)]
    rfl
  · rw [convert_spec, if_pos (by dsimp only; omega)]
    rfl
  · intro p hp
    rw [convert_spec, if_neg (by omega)]
  · intro p h1 h2 h3
    rw [convert_spec, if_neg (by omega)]

/-- Witness for C9 at the game's actual configuration (10×10 grid). -/
theorem C9_coordinate_translation_witness :
    0 < (10 : Nat) ∧ 1 < (10 : Nat) ∧
    (((GameState.new ⟨10, 10⟩ 10).convert_absolute_to_relative ⟨1, 1⟩ =
        some ⟨0, 0⟩) ∧
      ((GameState.new ⟨10, 10⟩ 10).convert_absolute_to_relative ⟨1, 3⟩ =
        some ⟨0, 1⟩) ∧
      (∀ p : IndexPair, p.row < 1 ∨ p.col < 1 →
        (GameState.new ⟨10, 10⟩ 10).convert_absolute_to_relative p = none) ∧
      (∀ p : IndexPair, 1 ≤ p.row → 1 ≤ p.col →
        (10 ≤ p.row - 1 ∨ 10 ≤ (p.col - 1) / 2) →
        (GameState.new ⟨10, 10⟩ 10).convert_absolute_to_relative p = none)) :=
  ⟨by decide, by decide,
    C9_coordinate_translation ⟨10, 10⟩ 10 (by decide) (by decide)⟩

/-- C7 (confirmed): once the status is `Win` or `Loss`, `handle_mouse` returns
the state unchanged for every mouse event and shuffle outcome — status,
grids and allocation flag included — so the status is monotonic. -/
theorem C7_terminal_states_frozen (gs : GameState) (event : MouseEvent)
    (sh : List IndexPair)
    (h : gs.status = GameStatus.Win ∨ gs.status = GameStatus.Loss) :
    gs.handle_mouse event sh = some gs := by
  unfold GameState.handle_mouse
  rw [if_pos]
  rcases h with h | h <;> rw [h] <;> simp

/-- Witness for C7: a won 2×2 game ignores a click. -/
theorem C7_terminal_states_frozen_witness :
    (wonGS.status = GameStatus.Win ∨ wonGS.status = GameStatus.Loss) ∧
    wonGS.handle_mouse (leftClickAt 1 1) [] = some wonGS :=
  ⟨Or.inl rfl, C7_terminal_states_frozen wonGS (leftClickAt 1 1) [] (Or.inl rfl)⟩

/-- C8 (confirmed): `open_at` is idempotent — a second call at the same
coordinate returns the whole field state unchanged (in particular the same
opened set). -/
theorem C8_open_at_idempotent (f : Field) (c : IndexPair) (hwf : f.wf)
    (hc : inB f.size c) : (f.open_at c).open_at c = f.open_at c := by
  have h1 : (f.open_at c).opened.get c = true := open_at_opened_self c hwf hc
  show Field.open_at_fuel
    ((f.open_at c).size.row * (f.open_at c).size.col + 1) (f.open_at c) c =
    f.open_at c
  rw [Field.open_at_fuel_succ, if_pos h1]

/-- Witness for C8 on a concrete 2×2 field. -/
theorem C8_open_at_idempotent_witness :
    (Field.new ⟨2, 2⟩ 1).wf ∧ inB (Field.new ⟨2, 2⟩ 1).size ⟨1, 1⟩ ∧
    ((Field.new ⟨2, 2⟩ 1).open_at ⟨1, 1⟩).open_at ⟨1, 1⟩ =
      (Field.new ⟨2, 2⟩ 1).open_at ⟨1, 1⟩ :=
  ⟨by decide, by decide,
    C8_open_at_idempotent (Field.new ⟨2, 2⟩ 1) ⟨1, 1⟩ (by decide) (by decide)⟩

/-- C3 counterexample: on a 2×2 grid, `sum_neighbors` at the corner (0,0)
examines 4 cells, not 3; the argument cell itself is among the cells
examined, and a `true` stored at the argument cell is included in the count
(a grid whose only `true` is at (0,0) yields count 1, not 0). -/
theorem C3_cex_centre_included :
    (GridIterator.around ⟨2, 2⟩ ⟨0, 0⟩).length = 4 ∧
    (⟨0, 0⟩ : IndexPair) ∈ GridIterator.around ⟨2, 2⟩ ⟨0, 0⟩ ∧
    ((Grid.new ⟨2, 2⟩).set ⟨0, 0⟩ true).sum_neighbors ⟨0, 0⟩ = 1 :=
  ⟨by decide, by decide, by decide⟩

/-- C3 (amended): on an N×N grid (N ≥ 2), `sum_neighbors` examines exactly 4
cells at a corner, 6 at a non-corner edge cell and 9 at an interior cell; in
every case the argument cell itself is among the cells examined, and it
contributes to the count when it holds `true`. -/
theorem C3_neighbourhood_sizes (N : Nat) (hN : 2 ≤ N) (c : IndexPair)
    (hb : inB ⟨N, N⟩ c) :
    c ∈ GridIterator.around ⟨N, N⟩ c ∧
    (∀ g : Grid, g.size = ⟨N, N⟩ → g.get c = true → 1 ≤ g.sum_neighbors c) ∧
    (((c.row = 0 ∨ c.row = N - 1) ∧ (c.col = 0 ∨ c.col = N - 1)) →
      (GridIterator.around ⟨N, N⟩ c).length = 4) ∧
    ((((c.row = 0 ∨ c.row = N - 1) ∧ 0 < c.col ∧ c.col < N - 1) ∨
      ((c.col = 0 ∨ c.col = N - 1) ∧ 0 < c.row ∧ c.row < N - 1)) →
      (GridIterator.around ⟨N, N⟩ c).length = 6) ∧
    ((0 < c.row ∧ c.row < N - 1 ∧ 0 < c.col ∧ c.col < N - 1) →
      (GridIterator.around ⟨N, N⟩ c).length = 9) := by
  have hb' := hb
  obtain ⟨h1, h2⟩ := hb'
  have hrow : ∀ a : Nat, a < N →
      ((a = 0 ∨ a = N - 1) → min (a + 2) N - (a - 1) = 2) ∧
      ((0 < a ∧ a < N - 1) → min (a + 2) N - (a - 1) = 3) := by
    intro a ha
    constructor <;> intro h <;> omega
  refine ⟨GridIterator.around_self hb, ?_, ?_, ?_, ?_⟩
  · intro g hsz hg
    unfold Grid.sum_neighbors
    have hmem : c ∈ g.around c := by
      unfold Grid.around
      rw [hsz]
      exact GridIterator.around_self hb
    have := List.single_le_sum
      (by intro x _; omega : ∀ x ∈ (g.around c).map (fun i => if g.get i then 1 else 0), 0 ≤ x)
      (if g.get c then 1 else 0) (List.mem_map_of_mem _ hmem)
    rw [hg] at this
    simpa using this
  · rintro ⟨ha, hbb⟩
    rw [GridIterator.length_around hb]
    dsimp only
    rw [(hrow c.row h1).1 ha, (hrow c.col h2).1 hbb]
  · rintro (⟨ha, hbb⟩ | ⟨ha, hbb⟩)
    · rw [GridIterator.length_around hb]
      dsimp only
      rw [(hrow c.row h1).1 ha, (hrow c.col h2).2 hbb]
    · rw [GridIterator.length_around hb]
      dsimp only
      rw [(hrow c.col h2).1 ha, (hrow c.row h1).2 hbb]
  · rintro ⟨ha, hbb, hcc, hdd⟩
    rw [GridIterator.length_around hb]
    dsimp only
    rw [(hrow c.row h1).2 ⟨ha, hbb⟩, (hrow c.col h2).2 ⟨hcc, hdd⟩]

/-- Witness for C3 at N = 4, corner (0,0). -/
theorem C3_neighbourhood_sizes_witness :
    2 ≤ (4 : Nat) ∧ inB ⟨4, 4⟩ ⟨0, 0⟩ ∧
    ((⟨0, 0⟩ : IndexPair) ∈ GridIterator.around ⟨4, 4⟩ ⟨0, 0⟩ ∧
      (∀ g : Grid, g.size = ⟨4, 4⟩ → g.get ⟨0, 0⟩ = true →
        1 ≤ g.sum_neighbors ⟨0, 0⟩) ∧
      ((((⟨0, 0⟩ : IndexPair).row = 0 ∨ (⟨0, 0⟩ : IndexPair).row = 4 - 1) ∧
        ((⟨0, 0⟩ : IndexPair).col = 0 ∨ (⟨0, 0⟩ : IndexPair).col = 4 - 1)) →
        (GridIterator.around ⟨4, 4⟩ ⟨0, 0⟩).length = 4) ∧
      (((((⟨0, 0⟩ : IndexPair).row = 0 ∨ (⟨0, 0⟩ : IndexPair).row = 4 - 1) ∧
          0 < (⟨0, 0⟩ : IndexPair).col ∧ (⟨0, 0⟩ : IndexPair).col < 4 - 1) ∨
        (((⟨0, 0⟩ : IndexPair).col = 0 ∨ (⟨0, 0⟩ : IndexPair).col = 4 - 1) ∧
          0 < (⟨0, 0⟩ : IndexPair).row ∧ (⟨0, 0⟩ : IndexPair).row < 4 - 1)) →
        (GridIterator.around ⟨4, 4⟩ ⟨0, 0⟩).length = 6) ∧
      ((0 < (⟨0, 0⟩ : IndexPair).row ∧ (⟨0, 0⟩ : IndexPair).row < 4 - 1 ∧
        0 < (⟨0, 0⟩ : IndexPair).col ∧ (⟨0, 0⟩ : IndexPair).col < 4 - 1) →
        (GridIterator.around ⟨4, 4⟩ ⟨0, 0⟩).length = 9)) :=
  ⟨by decide, by decide,
    C3_neighbourhood_sizes 4 (by decide) ⟨0, 0⟩ (by decide)⟩

/-- C5 counterexample: on a mine-free 1×3 field whose middle cell is already
opened (a state violating cascade closure), clicking the zero-neighbour cell
(0,0) does not open (0,2), although (0,2) belongs to the maximal connected
zero-neighbour region of (0,0); so the claim fails for arbitrary minefield
states. -/
theorem C5_cex_preopened_gap :
    fieldWithPreopenedGap.mines.get ⟨0, 0⟩ = false ∧
    fieldWithPreopenedGap.mines.sum_neighbors ⟨0, 0⟩ = 0 ∧
    fieldWithPreopenedGap.mines.get ⟨0, 2⟩ = false ∧
    fieldWithPreopenedGap.mines.sum_neighbors ⟨0, 2⟩ = 0 ∧
    ZeroCluster fieldWithPreopenedGap ⟨0, 0⟩ ⟨0, 2⟩ ∧
    (fieldWithPreopenedGap.open_at ⟨0, 0⟩).opened.get ⟨0, 2⟩ = false :=
  ⟨by decide, by decide, by decide, by decide,
    ZeroCluster.step ⟨0, 1⟩ ⟨0, 2⟩
      (ZeroCluster.step ⟨0, 0⟩ ⟨0, 1⟩ ZeroCluster.base (by decide) (by decide)
        (by decide))
      (by decide) (by decide) (by decide),
    by decide⟩

/-- C5 (amended): for every well-formed, cascade-closed minefield state and
every in-bounds non-mine zero-neighbour-count coordinate `c`, `open_at c`
opens exactly the maximal connected zero-neighbour region of `c` together
with its bordering non-mine cells (and the previously opened cells), and
leaves every mine cell's opened state unchanged.  `ZeroCluster` is by
construction the least — hence the maximal connected — zero region, and the
third conjunct states its closure under adjacency. -/
theorem C5_floodfill_region (f : Field) (c : IndexPair) (hwf : f.wf)
    (hc : inB f.size c) (hclosed : cascadeClosed f [])
    (hm : f.mines.get c = false) (hz : f.mines.sum_neighbors c = 0) :
    (∀ x, inB f.size x →
      ((f.open_at c).opened.get x = true ↔
        f.opened.get x = true ∨ ZeroCluster f c x ∨
          (f.mines.get x = false ∧
            ∃ d, ZeroCluster f c d ∧ x ∈ GridIterator.around f.size d)))
    ∧ (∀ x, ZeroCluster f c x →
        f.mines.get x = false ∧ f.mines.sum_neighbors x = 0)
    ∧ (∀ d e, ZeroCluster f c d → e ∈ GridIterator.around f.size d →
        f.mines.get e = false → f.mines.sum_neighbors e = 0 → ZeroCluster f c e)
    ∧ (∀ x, inB f.size x → f.mines.get x = true →
        (f.open_at c).opened.get x = f.opened.get x) := by
  refine ⟨?_, zeroCluster_zero hm hz,
    fun d e hd he hem hez => ZeroCluster.step d e hd he hem hez, ?_⟩
  · intro x hx
    constructor
    · intro h
      rcases open_at_opened_sound hwf hc x hx h with h' | h'
      · exact Or.inl h'
      · rcases (cascadeSet_iff_cluster_or_border hm hz x).1 h' with h'' | h''
        · exact Or.inr (Or.inl h'')
        · exact Or.inr (Or.inr h'')
    · rintro (h | h | h)
      · exact (open_at_pres f c).opened_mono x h
      · exact cascadeSet_opened hwf hc hclosed x
          ((cascadeSet_iff_cluster_or_border hm hz x).2 (Or.inl h))
      · exact cascadeSet_opened hwf hc hclosed x
          ((cascadeSet_iff_cluster_or_border hm hz x).2 (Or.inr h))
  · intro x hx hmx
    rcases hb : f.opened.get x with _ | _
    · rcases ha : (f.open_at c).opened.get x with _ | _
      · rfl
      · exfalso
        rcases open_at_opened_sound hwf hc x hx ha with h | h
        · rw [hb] at h
          exact absurd h (by simp)
        · have hmf := cascadeSet_not_mine hm x h
          rw [hmx] at hmf
          exact absurd hmf (by simp)
    · exact (open_at_pres f c).opened_mono x hb

/-- Witness for C5 on a fresh mine-free 2×2 field clicked at (0,0). -/
theorem C5_floodfill_region_witness :
    (Field.new ⟨2, 2⟩ 0).wf ∧ inB (Field.new ⟨2, 2⟩ 0).size ⟨0, 0⟩ ∧
    cascadeClosed (Field.new ⟨2, 2⟩ 0) [] ∧
    (Field.new ⟨2, 2⟩ 0).mines.get ⟨0, 0⟩ = false ∧
    (Field.new ⟨2, 2⟩ 0).mines.sum_neighbors ⟨0, 0⟩ = 0 ∧
    ((∀ x, inB (Field.new ⟨2, 2⟩ 0).size x →
      (((Field.new ⟨2, 2⟩ 0).open_at ⟨0, 0⟩).opened.get x = true ↔
        (Field.new ⟨2, 2⟩ 0).opened.get x = true ∨
          ZeroCluster (Field.new ⟨2, 2⟩ 0) ⟨0, 0⟩ x ∨
          ((Field.new ⟨2, 2⟩ 0).mines.get x = false ∧
            ∃ d, ZeroCluster (Field.new ⟨2, 2⟩ 0) ⟨0, 0⟩ d ∧
              x ∈ GridIterator.around (Field.new ⟨2, 2⟩ 0).size d)))
    ∧ (∀ x, ZeroCluster (Field.new ⟨2, 2⟩ 0) ⟨0, 0⟩ x →
        (Field.new ⟨2, 2⟩ 0).mines.get x = false ∧
        (Field.new ⟨2, 2⟩ 0).mines.sum_neighbors x = 0)
    ∧ (∀ d e, ZeroCluster (Field.new ⟨2, 2⟩ 0) ⟨0, 0⟩ d →
        e ∈ GridIterator.around (Field.new ⟨2, 2⟩ 0).size d →
        (Field.new ⟨2, 2⟩ 0).mines.get e = false →
        (Field.new ⟨2, 2⟩ 0).mines.sum_neighbors e = 0 →
        ZeroCluster (Field.new ⟨2, 2⟩ 0) ⟨0, 0⟩ e)
    ∧ (∀ x, inB (Field.new ⟨2, 2⟩ 0).size x →
        (Field.new ⟨2, 2⟩ 0).mines.get x = true →
        ((Field.new ⟨2, 2⟩ 0).open_at ⟨0, 0⟩).opened.get x =
          (Field.new ⟨2, 2⟩ 0).opened.get x)) :=
  ⟨by decide, by decide, by decide, by decide, by decide,
    C5_floodfill_region (Field.new ⟨2, 2⟩ 0) ⟨0, 0⟩ (by decide) (by decide)
      (by decide) (by decide) (by decide)⟩

/-- C6 (confirmed): on every reachable field no cell is both opened and
flagged; a force click never changes an opened cell (so an opened cell can
never be flagged afterwards); and a plain click on a flagged cell opens
nothing. -/
theorem C6_flag_open_exclusion (size : IndexPair) (n : Nat) (f : Field)
    (h : FieldReach size n f) :
    (∀ x, inB f.size x → ¬(f.opened.get x = true ∧ f.flags.get x = true)) ∧
    (∀ c, f.opened.get c = true → (f.handle_force_click c).1 = f) ∧
    (∀ c sh f' r, f.handle_click c sh = some (f', r) → f.flags.get c = true →
      f'.opened = f.opened) := by
  refine ⟨(fieldReach_wf_inv h).2, ?_, ?_⟩
  · intro c hc
    simp [Field.handle_force_click, hc]
  · intro c sh f' r hcl hflag
    unfold Field.handle_click at hcl
    rcases halloc : (if f.are_mines_allocated then some f
        else f.allocate_mines sh) with _ | f1
    · rw [halloc] at hcl
      exact absurd hcl (by simp)
    · rw [halloc] at hcl
      dsimp only at hcl
      have hparts : f1.opened = f.opened ∧ f1.flags = f.flags := by
        split at halloc
        · injection halloc with he
          subst he
          exact ⟨rfl, rfl⟩
        · obtain ⟨_, h2, h3, _⟩ := allocate_some_parts halloc
          exact ⟨h2, h3⟩
      have hflag1 : f1.flags.get c = true := by
        rw [hparts.2]
        exact hflag
      rw [if_pos hflag1, Option.some.injEq, Prod.mk.injEq] at hcl
      obtain ⟨h1, _⟩ := hcl
      subst h1
      exact hparts.1

/-- Witness for C6 at the freshly constructed 2×2 field. -/
theorem C6_flag_open_exclusion_witness :
    FieldReach ⟨2, 2⟩ 1 (Field.new ⟨2, 2⟩ 1) ∧
    ((∀ x, inB (Field.new ⟨2, 2⟩ 1).size x →
        ¬((Field.new ⟨2, 2⟩ 1).opened.get x = true ∧
          (Field.new ⟨2, 2⟩ 1).flags.get x = true)) ∧
      (∀ c, (Field.new ⟨2, 2⟩ 1).opened.get c = true →
        ((Field.new ⟨2, 2⟩ 1).handle_force_click c).1 = Field.new ⟨2, 2⟩ 1) ∧
      (∀ c sh f' r, (Field.new ⟨2, 2⟩ 1).handle_click c sh = some (f', r) →
        (Field.new ⟨2, 2⟩ 1).flags.get c = true →
        f'.opened = (Field.new ⟨2, 2⟩ 1).opened)) :=
  ⟨FieldReach.init,
    C6_flag_open_exclusion ⟨2, 2⟩ 1 (Field.new ⟨2, 2⟩ 1) FieldReach.init⟩

/-- C2 counterexample: `Field::new` accepts a 2×2 grid with 5 mines — more
than the cell count — signalling nothing at construction; the first click
reaches `allocate_mines`, which panics (`none`): the configuration is not
rejected at construction and `allocate_mines` is reached. -/
theorem C2_cex_construction_accepts_oversized :
    (Field.new ⟨2, 2⟩ 5).n_mines = 5 ∧
    (Field.new ⟨2, 2⟩ 5).are_mines_allocated = false ∧
    (Field.new ⟨2, 2⟩ 5).allocate_mines
      ((Field.new ⟨2, 2⟩ 5).eligible_indices ⟨0, 0⟩) = none ∧
    (Field.new ⟨2, 2⟩ 5).handle_click ⟨0, 0⟩
      ((Field.new ⟨2, 2⟩ 5).eligible_indices ⟨0, 0⟩) = none :=
  ⟨rfl, rfl, by decide, by decide⟩

/-- C2 (amended): `Field::new` performs no validation (it constructs every
configuration, keeping the full mine count and leaving mines unallocated);
a mine count exceeding the eligible-cell count is detected only when
`allocate_mines` is reached at the first click, where it panics (modelled
`none`) rather than clamping, and a feasible count allocates exactly
`n_mines` mines. -/
theorem C2_validation_at_allocation (size : IndexPair) (n : Nat)
    (start : IndexPair) (sh : List IndexPair) (hb : inB size start)
    (hperm : sh.Perm ((Field.new size n).eligible_indices start)) :
    (Field.new size n).are_mines_allocated = false ∧
    (Field.new size n).n_mines = n ∧
    (sh.length < n → (Field.new size n).allocate_mines sh = none) ∧
    (sh.length < n → (Field.new size n).handle_click start sh = none) ∧
    (n ≤ sh.length → ∃ f', (Field.new size n).allocate_mines sh = some f' ∧
      f'.are_mines_allocated = true ∧ f'.mines.count = n) := by
  have hnone : sh.length < n → (Field.new size n).allocate_mines sh = none := by
    intro hlen
    unfold Field.allocate_mines
    rw [if_neg]
    exact (by omega : ¬(n ≤ sh.length))
  refine ⟨rfl, rfl, hnone, ?_, ?_⟩
  · intro hlen
    unfold Field.handle_click
    rw [if_neg (by exact Bool.false_ne_true), hnone hlen]
  · intro hlen
    obtain ⟨f', h1, h2, h3, _⟩ :=
      allocate_mines_spec (field_new_wf size n) rfl hb hperm hlen
    exact ⟨f', h1, h2, h3⟩

/-- Witness for C2 at the oversized 2×2 configuration with 5 mines. -/
theorem C2_validation_at_allocation_witness :
    inB (⟨2, 2⟩ : IndexPair) ⟨0, 0⟩ ∧
    List.Perm ((Field.new ⟨2, 2⟩ 5).eligible_indices ⟨0, 0⟩)
      ((Field.new ⟨2, 2⟩ 5).eligible_indices ⟨0, 0⟩) ∧
    ((Field.new ⟨2, 2⟩ 5).are_mines_allocated = false ∧
      (Field.new ⟨2, 2⟩ 5).n_mines = 5 ∧
      (((Field.new ⟨2, 2⟩ 5).eligible_indices ⟨0, 0⟩).length < 5 →
        (Field.new ⟨2, 2⟩ 5).allocate_mines
          ((Field.new ⟨2, 2⟩ 5).eligible_indices ⟨0, 0⟩) = none) ∧
      (((Field.new ⟨2, 2⟩ 5).eligible_indices ⟨0, 0⟩).length < 5 →
        (Field.new ⟨2, 2⟩ 5).handle_click ⟨0, 0⟩
          ((Field.new ⟨2, 2⟩ 5).eligible_indices ⟨0, 0⟩) = none) ∧
      (5 ≤ ((Field.new ⟨2, 2⟩ 5).eligible_indices ⟨0, 0⟩).length →
        ∃ f', (Field.new ⟨2, 2⟩ 5).allocate_mines
            ((Field.new ⟨2, 2⟩ 5).eligible_indices ⟨0, 0⟩) = some f' ∧
          f'.are_mines_allocated = true ∧ f'.mines.count = 5)) :=
  ⟨by decide, List.Perm.refl _,
    C2_validation_at_allocation ⟨2, 2⟩ 5 ⟨0, 0⟩ _ (by decide) (List.Perm.refl _)⟩

/-- C4 (confirmed): for every grid size, every in-bounds starting coordinate
and every mine count with `mines ≤ cells − 9`, `allocate_mines` succeeds for
every shuffle outcome, sets exactly the configured number of distinct cells
to mined, places no mine in the clicked cell or any in-bounds cell of its
3×3 block, and sets the allocation flag. -/
theorem C4_allocate_mines_safe_zone (f : Field) (start : IndexPair)
    (sh : List IndexPair) (hwf : f.wf) (hmines0 : f.mines = Grid.new f.size)
    (hb : inB f.size start)
    (hn : f.n_mines ≤ f.size.row * f.size.col - 9)
    (hperm : sh.Perm (f.eligible_indices start)) :
    ∃ f', f.allocate_mines sh = some f' ∧
      f'.are_mines_allocated = true ∧
      f'.mines.count = f.n_mines ∧
      ∀ j ∈ GridIterator.around f.size start, f'.mines.get j = false := by
  have hlen : f.n_mines ≤ sh.length := by
    rw [hperm.length_eq, length_eligible hwf hb]
    have := GridIterator.length_around_le_nine hb
    omega
  obtain ⟨f', h1, h2, h3, h4, _⟩ := allocate_mines_spec hwf hmines0 hb hperm hlen
  exact ⟨f', h1, h2, h3, h4⟩

/-- Witness for C4: a 4×4 field with 2 mines (2 ≤ 16 − 9) clicked at the
corner. -/
theorem C4_allocate_mines_safe_zone_witness :
    (Field.new ⟨4, 4⟩ 2).wf ∧
    (Field.new ⟨4, 4⟩ 2).mines = Grid.new (Field.new ⟨4, 4⟩ 2).size ∧
    inB (Field.new ⟨4, 4⟩ 2).size ⟨0, 0⟩ ∧
    (Field.new ⟨4, 4⟩ 2).n_mines ≤
      (Field.new ⟨4, 4⟩ 2).size.row * (Field.new ⟨4, 4⟩ 2).size.col - 9 ∧
    (∃ f', (Field.new ⟨4, 4⟩ 2).allocate_mines
        ((Field.new ⟨4, 4⟩ 2).eligible_indices ⟨0, 0⟩) = some f' ∧
      f'.are_mines_allocated = true ∧
      f'.mines.count = (Field.new ⟨4, 4⟩ 2).n_mines ∧
      ∀ j ∈ GridIterator.around (Field.new ⟨4, 4⟩ 2).size ⟨0, 0⟩,
        f'.mines.get j = false) :=
  ⟨by decide, by decide, by decide, by decide,
    C4_allocate_mines_safe_zone (Field.new ⟨4, 4⟩ 2) ⟨0, 0⟩ _ (by decide)
      (by decide) (by decide) (by decide) (List.Perm.refl _)⟩

/-- C10 (confirmed): a first reveal click (mines unallocated) on a flagged
cell still allocates the mines with that cell as safe zone — the flag is set,
exactly `n_mines` mines land outside the cell's 3×3 block — but opens no
cell, changes no flag, and returns `Safe`. -/
theorem C10_first_click_on_flagged_cell (f : Field) (c : IndexPair)
    (sh : List IndexPair) (hwf : f.wf) (halloc : f.are_mines_allocated = false)
    (hmines0 : f.mines = Grid.new f.size) (hflag : f.flags.get c = true)
    (hb : inB f.size c) (hperm : sh.Perm (f.eligible_indices c))
    (hlen : f.n_mines ≤ sh.length) :
    ∃ f', f.handle_click c sh = some (f', ClickResult.Safe) ∧
      f'.are_mines_allocated = true ∧ f'.mines.count = f.n_mines ∧
      (∀ j ∈ GridIterator.around f.size c, f'.mines.get j = false) ∧
      f'.opened = f.opened ∧ f'.flags = f.flags := by
  obtain ⟨f1, h1, h2, h3, h4, h5, h6, _⟩ :=
    allocate_mines_spec hwf hmines0 hb hperm hlen
  refine ⟨f1, ?_, h2, h3, h4, h5, h6⟩
  unfold Field.handle_click
  rw [if_neg (by rw [halloc]; simp), h1]
  dsimp only
  rw [if_pos (by rw [h6]; exact hflag)]

/-- Witness for C10: a fresh 3×3 one-mine field with a flag on (0,0),
clicked at (0,0). -/
theorem C10_first_click_on_flagged_cell_witness :
    flaggedFreshField.wf ∧
    flaggedFreshField.are_mines_allocated = false ∧
    flaggedFreshField.mines = Grid.new flaggedFreshField.size ∧
    flaggedFreshField.flags.get ⟨0, 0⟩ = true ∧
    inB flaggedFreshField.size ⟨0, 0⟩ ∧
    flaggedFreshField.n_mines ≤
      (flaggedFreshField.eligible_indices ⟨0, 0⟩).length ∧
    (∃ f', flaggedFreshField.handle_click ⟨0, 0⟩
        (flaggedFreshField.eligible_indices ⟨0, 0⟩) =
        some (f', ClickResult.Safe) ∧
      f'.are_mines_allocated = true ∧
      f'.mines.count = flaggedFreshField.n_mines ∧
      (∀ j ∈ GridIterator.around flaggedFreshField.size ⟨0, 0⟩,
        f'.mines.get j = false) ∧
      f'.opened = flaggedFreshField.opened ∧
      f'.flags = flaggedFreshField.flags) :=
  ⟨by decide, by decide, by decide, by decide, by decide, by decide,
    C10_first_click_on_flagged_cell flaggedFreshField ⟨0, 0⟩ _ (by decide)
      (by decide) (by decide) (by decide) (by decide) (List.Perm.refl _)
      (by decide)⟩

/-- C1: the code contradicts the claim — exploding and winning are NOT
mutually exclusive per single click.  `bugGS3` is a reachable 3×3 game with 2
mines (reached through valid clicks and a genuine shuffle permutation) that
is still in progress with 6 of its 7 safe cells opened.  Clicking the mine at
grid cell (2,0) makes `handle_click` return `Exploded`, yet opening that mine
raises the opened count to 7 = 9 − 2, so `check_for_win` also holds;
`handle_mouse` first sets `Loss` and then overwrites it with `Win`, ending
the exploding click on status `Win`. -/
theorem C1_exploding_click_can_win :
    GSReach ⟨3, 3⟩ 2 bugGS3 ∧
    bugGS3.status = GameStatus.InProgress ∧
    (bugGS3.field.handle_click ⟨2, 0⟩
        (bugGS3.field.eligible_indices ⟨2, 0⟩)).map Prod.snd =
      some ClickResult.Exploded ∧
    bugGS3.handle_mouse (leftClickAt 3 1)
      (bugGS3.field.eligible_indices ⟨2, 0⟩) = some bugGS4 ∧
    bugGS4.check_for_win = true ∧
    bugGS4.status = GameStatus.Win := by
  refine ⟨?_, by decide, by decide, by decide, by decide, by decide⟩
  have h0 : GSReach ⟨3, 3⟩ 2 bugGS0 := GSReach.init
  have hv1 : ValidShuffle bugGS0 (leftClickAt 1 1) bugShuffle := by
    show List.Perm bugShuffle (bugGS0.field.eligible_indices ⟨0, 0⟩)
    decide
  have h1 : GSReach ⟨3, 3⟩ 2 bugGS1 :=
    GSReach.step bugGS0 (leftClickAt 1 1) bugShuffle bugGS1 h0 hv1 (by decide)
  have hv2 : ValidShuffle bugGS1 (leftClickAt 2 5)
      (bugGS1.field.eligible_indices ⟨1, 2⟩) := by
    show List.Perm (bugGS1.field.eligible_indices ⟨1, 2⟩)
      (bugGS1.field.eligible_indices ⟨1, 2⟩)
    exact List.Perm.refl _
  have h2 : GSReach ⟨3, 3⟩ 2 bugGS2 :=
    GSReach.step bugGS1 (leftClickAt 2 5) (bugGS1.field.eligible_indices ⟨1, 2⟩)
      bugGS2 h1 hv2 (by decide)
  have hv3 : ValidShuffle bugGS2 (leftClickAt 3 3)
      (bugGS2.field.eligible_indices ⟨2, 1⟩) := by
    show List.Perm (bugGS2.field.eligible_indices ⟨2, 1⟩)
      (bugGS2.field.eligible_indices ⟨2, 1⟩)
    exact List.Perm.refl _
  exact GSReach.step bugGS2 (leftClickAt 3 3)
    (bugGS2.field.eligible_indices ⟨2, 1⟩) bugGS3 h2 hv3 (by decide)

end Mines
